import Mathlib

/-!
Isometric renderer (`src/isometric/isometric.c`)

A shallow embedding of the projector and rasterizer of `isometric.c`, and the
properties of the specification proved (or refuted) over it.

The file-level `static` variables of the C file become the fields of `State`,
which every operation takes and returns explicitly.  A write through the pixel
pointer that C leaves undefined (a null pointer, an offset outside the pixel
array) is an explicit `Fault`.  The fields of a `Vec3` are integers without a
bound (C leaves the overflow of `int` arithmetic undefined); the coordinates of a
screen point are `int16_t` in the SDK, and `project` wraps its results into that
range.  The two loops carry an iteration budget, and the theorems show that the
budget the model gives them is never exhausted.
-/

namespace Isometric

/-! ## Data model -/

/-- Modelled from the spec: the type `Vec3` is declared in `isometric.h`, which is
not part of the sources; the spec calls it an integer triple (x, y, z). -/
structure Vec3 where
  x : Int
  y : Int
  z : Int
deriving DecidableEq

/-- Modelled from the spec: the SDK type `GPoint` (the spec's ScreenPoint), an
integer pair (x, y).  In the SDK its fields are `int16_t`; the model keeps them as
integers and narrows a value where the code stores a computed `int` into them
(see `to_int16` and `project`). -/
structure GPoint where
  x : Int
  y : Int
deriving DecidableEq

/-- Modelled from the spec: the SDK type `GSize`, a width/height pair. -/
structure GSize where
  w : Int
  h : Int
deriving DecidableEq

/-- Modelled from the spec: the SDK type `GColor`; only its byte `argb` is read. -/
structure GColor where
  argb : Nat
deriving DecidableEq

/-- Modelled from the spec: the SDK type `GBitmap` as far as `isometric_begin`
reads it: the pixel array (`addr`, one byte per pixel) and the size of its bounds. -/
structure GBitmap where
  addr : List Nat
  bounds_size : GSize
deriving DecidableEq

/-- The ways a call can fail to return normally: a write through the null pixel
pointer, a write outside the pixel array, or an exhausted iteration budget of a
loop of the model. -/
inductive Fault where
  | nullBuffer
  | outOfRange
  | outOfFuel
deriving DecidableEq

/-- The file-level variables of `isometric.c`.  `s_fb` records whether the bitmap
pointer is non-null; `s_fb_data` is `none` for the null pointer and otherwise the
pixel array it points to. -/
structure State where
  s_enabled : Bool
  s_projection_offset : GPoint
  s_fb : Bool
  s_fb_size : GSize
  s_fb_data : Option (List Nat)
deriving DecidableEq

/-- The state at program start: the initialisers of the `static` variables
(`s_enabled = true`, pointers null, everything else zero). -/
def initial : State :=
  { s_enabled := true
    s_projection_offset := { x := 0, y := 0 }
    s_fb := false
    s_fb_size := { w := 0, h := 0 }
    s_fb_data := none }

/-- Results of calls can be compared. -/
instance : DecidableEq (Except Fault State) := fun a b =>
  match a, b with
  | .ok x, .ok y =>
    if h : x = y then isTrue (by rw [h]) else isFalse (fun e => h (by cases e; rfl))
  | .error x, .error y =>
    if h : x = y then isTrue (by rw [h]) else isFalse (fun e => h (by cases e; rfl))
  | .ok _, .error _ => isFalse (fun e => by cases e)
  | .error _, .ok _ => isFalse (fun e => by cases e)

/-! ## Projector -/

/-- The conversion of an `int` to `int16_t` on assignment to a field of a `GPoint`:
the value is wrapped modulo 2^16 into -32768 .. 32767. -/
def to_int16 (n : Int) : Int :=
  (n + 32768) % 65536 - 32768

/-- The function `project`: C integer division is `Int.tdiv` (truncation toward
zero), and each result is narrowed as it is stored in the `int16_t` field. -/
def project (s : State) (input : Vec3) : GPoint :=
  if s.s_enabled then
    { x := to_int16 (s.s_projection_offset.x + (input.x - input.y))
      y := to_int16
        (s.s_projection_offset.y + (Int.tdiv input.x 2 + Int.tdiv input.y 2) - input.z) }
  else
    { x := to_int16 input.x
      y := to_int16 input.y }

/-- The values `project` computes before it stores them in the `int16_t` fields:
the projection formulas without the narrowing. -/
def project_wide (s : State) (input : Vec3) : GPoint :=
  if s.s_enabled then
    { x := s.s_projection_offset.x + (input.x - input.y)
      y := s.s_projection_offset.y + (Int.tdiv input.x 2 + Int.tdiv input.y 2) - input.z }
  else
    { x := input.x
      y := input.y }

/-- The function `isometric_set_enabled`. -/
def isometric_set_enabled (b : Bool) (s : State) : State :=
  { s with s_enabled := b }

/-- The function `isometric_set_projection_offset`. -/
def isometric_set_projection_offset (offset : GPoint) (s : State) : State :=
  { s with s_projection_offset := offset }

/-! ## Render target -/

/-- The function `isometric_begin`; `fb` is the bitmap that
`graphics_capture_frame_buffer` hands out. -/
def isometric_begin (fb : GBitmap) (s : State) : State :=
  { s with s_fb := true, s_fb_data := some fb.addr, s_fb_size := fb.bounds_size }

/-- The function `isometric_finish`. -/
def isometric_finish (s : State) : State :=
  if s.s_fb then { s with s_fb := false, s_fb_data := none } else s

/-! ## Pixel write -/

/-- The byte `(uint8_t)color.argb`. -/
def color_byte (color : GColor) : Nat :=
  color.argb % 256

/-- The index expression `(pixel.y * s_fb_size.w) + pixel.x` of `set_pixel`. -/
def pixel_offset (s : State) (pixel : GPoint) : Int :=
  pixel.y * s.s_fb_size.w + pixel.x

/-- The guard of `set_pixel`. -/
def on_display (pixel : GPoint) : Prop :=
  pixel.x ≥ 0 ∧ pixel.x < 144 ∧ pixel.y ≥ 0 ∧ pixel.y < 168

instance (pixel : GPoint) : Decidable (on_display pixel) := by
  unfold on_display; infer_instance

/-- The function `set_pixel`: the one-byte `memset` at `&s_fb_data[offset]`. -/
def set_pixel (s : State) (pixel : GPoint) (color : GColor) : Except Fault State :=
  if on_display pixel then
    match s.s_fb_data with
    | none => .error .nullBuffer
    | some data =>
      if 0 ≤ pixel_offset s pixel ∧ pixel_offset s pixel < data.length then
        .ok { s with s_fb_data := some (data.set (pixel_offset s pixel).toNat (color_byte color)) }
      else
        .error .outOfRange
  else
    .ok s

/-! ## Line rasterizer -/

/-- The C library function `abs` on `int`. -/
def c_abs (n : Int) : Int :=
  if n < 0 then -n else n

/-- The variables that the loop of `bresenham_line` updates: the current point
`start` and the accumulator `err`. -/
structure LineVars where
  start : GPoint
  err : Int
deriving DecidableEq

/-- The part of the loop body of `bresenham_line` after the `break` test: the two
independent updates, both guarded by the saved value `e2`. -/
def bresenham_step (dx sx dy sy : Int) (v : LineVars) : LineVars :=
  let e2 := v.err
  let v1 : LineVars :=
    if e2 > -dx then { start := { x := v.start.x + sx, y := v.start.y }, err := v.err - dy } else v
  let v2 : LineVars :=
    if e2 < dy then { start := { x := v1.start.x, y := v1.start.y + sy }, err := v1.err + dx } else v1
  v2

/-- The `while(true)` loop of `bresenham_line`, with an iteration budget: plot the
current point, stop when it is `finish`, otherwise update and repeat. -/
def bresenham_loop (dx sx dy sy : Int) (finish : GPoint) (color : GColor) :
    Nat → LineVars → State → Except Fault State
  | 0, _, _ => .error .outOfFuel
  | fuel + 1, v, s =>
    match set_pixel s v.start color with
    | .error e => .error e
    | .ok s1 =>
      if v.start.x = finish.x ∧ v.start.y = finish.y then .ok s1
      else bresenham_loop dx sx dy sy finish color fuel (bresenham_step dx sx dy sy v) s1

/-- The declarations before the loop of `bresenham_line`: `dx`. -/
def line_dx (start finish : GPoint) : Int := c_abs (finish.x - start.x)

/-- The declarations before the loop of `bresenham_line`: `sx`. -/
def line_sx (start finish : GPoint) : Int := if start.x < finish.x then 1 else -1

/-- The declarations before the loop of `bresenham_line`: `dy`. -/
def line_dy (start finish : GPoint) : Int := c_abs (finish.y - start.y)

/-- The declarations before the loop of `bresenham_line`: `sy`. -/
def line_sy (start finish : GPoint) : Int := if start.y < finish.y then 1 else -1

/-- The declarations before the loop of `bresenham_line`: the initial `err`. -/
def line_err (start finish : GPoint) : Int :=
  Int.tdiv (if line_dx start finish > line_dy start finish then line_dx start finish
    else -line_dy start finish) 2

/-- The loop variables on entry to the loop of `bresenham_line`. -/
def line_init (start finish : GPoint) : LineVars :=
  { start := start, err := line_err start finish }

/-- The number of iterations after which the loop of `bresenham_line` has stopped
(see `line_reach`): one more than the longer of the two extents. -/
def line_fuel (start finish : GPoint) : Nat :=
  (max (line_dx start finish) (line_dy start finish)).toNat + 1

/-- The function `bresenham_line`. -/
def bresenham_line (start finish : GPoint) (color : GColor) (s : State) : Except Fault State :=
  bresenham_loop (line_dx start finish) (line_sx start finish) (line_dy start finish)
    (line_sy start finish) finish color (line_fuel start finish) (line_init start finish) s

/-- The sequence of points the loop of `bresenham_line` passes to `set_pixel`, in
order, when no write faults: the loop with the write left out. -/
def bresenham_trace (dx sx dy sy : Int) (finish : GPoint) : Nat → LineVars → List GPoint
  | 0, _ => []
  | fuel + 1, v =>
    v.start ::
      (if v.start.x = finish.x ∧ v.start.y = finish.y then []
       else bresenham_trace dx sx dy sy finish fuel (bresenham_step dx sx dy sy v))

/-- The points `bresenham_line start finish` passes to `set_pixel`. -/
def line_points (start finish : GPoint) : List GPoint :=
  bresenham_trace (line_dx start finish) (line_sx start finish) (line_dy start finish)
    (line_sy start finish) finish (line_fuel start finish) (line_init start finish)

/-- Passing each point of a list to `set_pixel` in order, stopping at the first fault. -/
def plot_points (color : GColor) : List GPoint → State → Except Fault State
  | [], s => .ok s
  | p :: ps, s =>
    match set_pixel s p color with
    | .error e => .error e
    | .ok s1 => plot_points color ps s1

/-! ## Shapes -/

/-- The function `isometric_draw_rect`. -/
def isometric_draw_rect (origin : Vec3) (size : GSize) (color : GColor) (s : State) :
    Except Fault State := do
  -- Top
  let s ← bresenham_line (project s origin)
    (project s { x := origin.x + size.w, y := origin.y, z := origin.z }) color s
  -- Right
  let s ← bresenham_line (project s { x := origin.x + size.w, y := origin.y, z := origin.z })
    (project s { x := origin.x + size.w, y := origin.y + size.h, z := origin.z }) color s
  -- Bottom
  let s ← bresenham_line (project s { x := origin.x, y := origin.y + size.h, z := origin.z })
    (project s { x := origin.x + size.w, y := origin.y + size.h, z := origin.z }) color s
  -- Left
  bresenham_line (project s origin)
    (project s { x := origin.x, y := origin.y + size.h, z := origin.z }) color s

/-- A C loop `for(i = ...; i < bound; i++) body(i)`, with an iteration budget;
returns the final value of the counter with the state. -/
def for_loop (body : Int → State → Except Fault State) (bound : Int) :
    Nat → Int → State → Except Fault (Int × State)
  | 0, _, _ => .error .outOfFuel
  | fuel + 1, i, s =>
    if i < bound then
      match body i s with
      | .error e => .error e
      | .ok s1 => for_loop body bound fuel (i + 1) s1
    else .ok (i, s)

/-- The iteration budget for a `for` loop from `first` up to `bound`: one test more
than the number of values of the counter. -/
def for_fuel (first bound : Int) : Nat :=
  (bound - first).toNat + 1

/-- The inner loop of `isometric_fill_rect`: one line per `y` in
`origin.y ≤ y < origin.y + size.h`. -/
def fill_rect_layer (origin : Vec3) (size : GSize) (color : GColor) (s : State) :
    Except Fault State := do
  let r ← for_loop
    (fun y s => bresenham_line (project s { x := origin.x, y := y, z := origin.z })
      (project s { x := origin.x + size.w, y := y, z := origin.z }) color s)
    (origin.y + size.h) (for_fuel origin.y (origin.y + size.h)) origin.y s
  pure r.2

/-- The function `isometric_fill_rect`: the outer loop runs twice (`i = 0, 1`),
decrementing `origin.z` after each pass. -/
def isometric_fill_rect (origin : Vec3) (size : GSize) (color : GColor) (s : State) :
    Except Fault State := do
  let s ← fill_rect_layer origin size color s
  let origin : Vec3 := { origin with z := origin.z - 1 }
  let s ← fill_rect_layer origin size color s
  pure s

/-- The body of the `z` loop of `isometric_fill_box`; `optimize` says whether
`OPTIMIZE_FILL_BOX` is defined. -/
def fill_box_body (optimize : Bool) (origin : Vec3) (size : GSize) (color : GColor)
    (z : Int) (s : State) : Except Fault State :=
  if optimize then do
    -- Right
    let s ← bresenham_line (project s { x := origin.x + size.w, y := origin.y, z := z })
      (project s { x := origin.x + size.w, y := origin.y + size.h, z := z }) color s
    -- Bottom
    bresenham_line (project s { x := origin.x, y := origin.y + size.h, z := z })
      (project s { x := origin.x + size.w, y := origin.y + size.h, z := z }) color s
  else
    isometric_draw_rect { x := origin.x, y := origin.y, z := z } size color s

/-- The function `isometric_fill_box`. -/
def isometric_fill_box (optimize : Bool) (origin : Vec3) (size : GSize) (z_height : Int)
    (color : GColor) (s : State) : Except Fault State := do
  let r ← for_loop (fill_box_body optimize origin size color) (origin.z + z_height)
    (for_fuel origin.z (origin.z + z_height)) origin.z s
  let z := r.1
  -- Fill in top
  isometric_fill_rect { x := origin.x, y := origin.y, z := if z_height > 0 then z - 1 else z }
    size color r.2

/-- The function `isometric_draw_box`. -/
def isometric_draw_box (origin : Vec3) (size : GSize) (z_height : Int) (color : GColor)
    (s : State) : Except Fault State := do
  -- Bottom
  let s ← bresenham_line (project s { x := origin.x + size.w, y := origin.y, z := origin.z })
    (project s { x := origin.x + size.w, y := origin.y + size.h, z := origin.z }) color s
  let s ← bresenham_line (project s { x := origin.x, y := origin.y + size.h, z := origin.z })
    (project s { x := origin.x + size.w, y := origin.y + size.h, z := origin.z }) color s
  -- Top
  let s ← isometric_draw_rect { x := origin.x, y := origin.y, z := origin.z + z_height } size color s
  -- Sides
  let s ← bresenham_line (project s { x := origin.x, y := origin.y + size.h, z := origin.z })
    (project s { x := origin.x, y := origin.y + size.h, z := origin.z + z_height }) color s
  let s ← bresenham_line
    (project s { x := origin.x + size.w, y := origin.y + size.h, z := origin.z })
    (project s { x := origin.x + size.w, y := origin.y + size.h, z := origin.z + z_height }) color s
  bresenham_line (project s { x := origin.x + size.w, y := origin.y, z := origin.z })
    (project s { x := origin.x + size.w, y := origin.y, z := origin.z + z_height }) color s

/-- The function `isometric_draw_pixel`. -/
def isometric_draw_pixel (point : Vec3) (color : GColor) (s : State) : Except Fault State :=
  set_pixel s (project s point) color

/-- Running a loop body `n` times in a row, the counter taking the values
`i`, `i + 1`, ..., `i + n - 1` in this order, stopping at the first fault. -/
def run_span (body : Int → State → Except Fault State) : Nat → Int → State → Except Fault State
  | 0, _, s => .ok s
  | n + 1, i, s =>
    match body i s with
    | .error e => .error e
    | .ok s1 => run_span body n (i + 1) s1

/-! ## Plotted points

The points each drawing call passes to `set_pixel`, in order, as a function of the
projection `P` in force (`P` is `project s` for the state `s` of the call). -/

/-- The points of `isometric_draw_rect`: top, right, bottom and left edge. -/
def rect_points (P : Vec3 → GPoint) (origin : Vec3) (size : GSize) : List GPoint :=
  line_points (P origin) (P { x := origin.x + size.w, y := origin.y, z := origin.z })
    ++ (line_points (P { x := origin.x + size.w, y := origin.y, z := origin.z })
        (P { x := origin.x + size.w, y := origin.y + size.h, z := origin.z })
    ++ (line_points (P { x := origin.x, y := origin.y + size.h, z := origin.z })
        (P { x := origin.x + size.w, y := origin.y + size.h, z := origin.z })
    ++ line_points (P origin) (P { x := origin.x, y := origin.y + size.h, z := origin.z })))

/-- The points of `n` consecutive passes of a loop body, the counter starting at `i`. -/
def span_points (pts : Int → List GPoint) : Nat → Int → List GPoint
  | 0, _ => []
  | n + 1, i => pts i ++ span_points pts n (i + 1)

/-- The points of one line of `isometric_fill_rect`, for the row `y`. -/
def row_points (P : Vec3 → GPoint) (origin : Vec3) (size : GSize) (y : Int) : List GPoint :=
  line_points (P { x := origin.x, y := y, z := origin.z })
    (P { x := origin.x + size.w, y := y, z := origin.z })

/-- The points of one pass of the outer loop of `isometric_fill_rect`. -/
def layer_points (P : Vec3 → GPoint) (origin : Vec3) (size : GSize) : List GPoint :=
  span_points (row_points P origin size) size.h.toNat origin.y

/-- The points of `isometric_fill_rect`: the layer at `origin.z`, then the one below. -/
def fill_rect_points (P : Vec3 → GPoint) (origin : Vec3) (size : GSize) : List GPoint :=
  layer_points P origin size ++ layer_points P { origin with z := origin.z - 1 } size

/-- The points of one pass of the `z` loop of `isometric_fill_box`. -/
def fill_box_body_points (optimize : Bool) (P : Vec3 → GPoint) (origin : Vec3) (size : GSize)
    (z : Int) : List GPoint :=
  if optimize then
    line_points (P { x := origin.x + size.w, y := origin.y, z := z })
        (P { x := origin.x + size.w, y := origin.y + size.h, z := z })
      ++ line_points (P { x := origin.x, y := origin.y + size.h, z := z })
        (P { x := origin.x + size.w, y := origin.y + size.h, z := z })
  else
    rect_points P { x := origin.x, y := origin.y, z := z } size

/-- The points of `isometric_fill_box`: the layers, then the cap. -/
def fill_box_points (optimize : Bool) (P : Vec3 → GPoint) (origin : Vec3) (size : GSize)
    (z_height : Int) : List GPoint :=
  span_points (fill_box_body_points optimize P origin size) z_height.toNat origin.z
    ++ fill_rect_points P
        { x := origin.x, y := origin.y,
          z := if z_height > 0 then origin.z + z_height.toNat - 1 else origin.z + z_height.toNat }
        size

/-- The points of `isometric_draw_box`: two bottom edges, the top rectangle, three
vertical edges. -/
def draw_box_points (P : Vec3 → GPoint) (origin : Vec3) (size : GSize) (z_height : Int) :
    List GPoint :=
  line_points (P { x := origin.x + size.w, y := origin.y, z := origin.z })
      (P { x := origin.x + size.w, y := origin.y + size.h, z := origin.z })
    ++ (line_points (P { x := origin.x, y := origin.y + size.h, z := origin.z })
      (P { x := origin.x + size.w, y := origin.y + size.h, z := origin.z })
    ++ (rect_points P { x := origin.x, y := origin.y, z := origin.z + z_height } size
    ++ (line_points (P { x := origin.x, y := origin.y + size.h, z := origin.z })
      (P { x := origin.x, y := origin.y + size.h, z := origin.z + z_height })
    ++ (line_points (P { x := origin.x + size.w, y := origin.y + size.h, z := origin.z })
      (P { x := origin.x + size.w, y := origin.y + size.h, z := origin.z + z_height })
    ++ line_points (P { x := origin.x + size.w, y := origin.y, z := origin.z })
      (P { x := origin.x + size.w, y := origin.y, z := origin.z + z_height })))))

/-- A call `f` plots `pts`: in every state it has the effect of passing the points
`pts (project s)` to `set_pixel` with colour `c`, in order. -/
def Plots (c : GColor) (f : State → Except Fault State)
    (pts : (Vec3 → GPoint) → List GPoint) : Prop :=
  ∀ s : State, f s = plot_points c (pts (project s)) s

/-- The loop variables of `bresenham_line` after `k` updates on the line from
(0,0) to `(dx, dy)` with both step signs `+1`. -/
def canon_walk (dx dy : Int) (k : Nat) : LineVars :=
  (bresenham_step dx 1 dy 1)^[k]
    { start := { x := 0, y := 0 }, err := Int.tdiv (if dx > dy then dx else -dy) 2 }

/-! ## Buffer contents -/

/-- The byte at offset `j` of the pixel array, if the array has that offset. -/
def cell (s : State) (j : Nat) : Option Nat :=
  match s.s_fb_data with
  | none => none
  | some data => data[j]?

/-- The offset `j` is the one `set_pixel` computes, on a target of width `W`, for
some point that passes its guard. -/
def display_offset (W : Int) (j : Nat) : Prop :=
  ∃ x y : Int, 0 ≤ x ∧ x < 144 ∧ 0 ≤ y ∧ y < 168 ∧ (j : Int) = y * W + x

/-- The pixel array of the active target has every offset that `set_pixel` can
compute. -/
def holds_display (s : State) : Prop :=
  ∃ data : List Nat, s.s_fb_data = some data ∧ 0 ≤ s.s_fb_size.w
    ∧ 167 * s.s_fb_size.w + 143 < data.length

/-- What writes of colour `c` may have changed between `s` and `s1`: only cells at
display offsets, and those only to the byte of `c`; nothing else of the state. -/
def Framed (c : GColor) (s s1 : State) : Prop :=
  (∀ j : Nat, ¬ display_offset s.s_fb_size.w j → cell s1 j = cell s j)
    ∧ (∀ j : Nat, cell s1 j = cell s j ∨ cell s1 j = some (color_byte c))
    ∧ s1.s_enabled = s.s_enabled ∧ s1.s_projection_offset = s.s_projection_offset
    ∧ s1.s_fb = s.s_fb ∧ s1.s_fb_size = s.s_fb_size
    ∧ s1.s_fb_data.map List.length = s.s_fb_data.map List.length

/-- The point `p` needs no further write of colour `c` in state `s`: it fails the
guard of `set_pixel`, or its cell already holds the byte of `c`. -/
def Lit (c : GColor) (s : State) (p : GPoint) : Prop :=
  ¬ on_display p ∨ (0 ≤ pixel_offset s p ∧ cell s (pixel_offset s p).toNat = some (color_byte c))

/-! ## Example states -/

/-- A render pass on the reference display: a 144x168 bitmap of zero bytes,
captured from the initial state. -/
def display_target : State :=
  isometric_begin { addr := List.replicate 24192 0, bounds_size := { w := 144, h := 168 } } initial

/-! ## Theorems -/

/-! ### Projector -/

theorem to_int16_fits (n : Int) (h0 : -32768 ≤ n) (h1 : n ≤ 32767) : to_int16 n = n := by
  unfold to_int16; omega

theorem project_eq_wide (s : State) (v : Vec3)
    (hx0 : -32768 ≤ (project_wide s v).x) (hx1 : (project_wide s v).x ≤ 32767)
    (hy0 : -32768 ≤ (project_wide s v).y) (hy1 : (project_wide s v).y ≤ 32767) :
    project s v = project_wide s v := by
  cases he : s.s_enabled
  · simp only [project_wide, he] at hx0 hx1 hy0 hy1
    simp only [project, project_wide, he]
    simp only [Bool.false_eq_true, if_false] at hx0 hx1 hy0 hy1 ⊢
    rw [to_int16_fits _ hx0 hx1, to_int16_fits _ hy0 hy1]
  · simp only [project_wide, he, if_true] at hx0 hx1 hy0 hy1
    simp only [project, project_wide, he, if_true]
    rw [to_int16_fits _ hx0 hx1, to_int16_fits _ hy0 hy1]

/-- C1 as stated fails: the results are stored in the `int16_t` fields of a
GPoint, so with the projector enabled at offset (0,0) the point (40000,0,0) goes
to x = -25536 (and y = 20000), not to x = 0 + (40000 - 0). -/
theorem project_enabled_narrows :
    initial.s_enabled = true ∧ initial.s_projection_offset = { x := 0, y := 0 }
      ∧ project initial { x := 40000, y := 0, z := 0 } = { x := -25536, y := 20000 }
      ∧ (project initial { x := 40000, y := 0, z := 0 }).x ≠ 0 + (40000 - 0) := by
  refine ⟨rfl, rfl, by decide, by decide⟩

/-- C1, amended: with the projector enabled, `project v` is
`(o.x + (v.x - v.y), o.y + (v.x / 2 + v.y / 2) - v.z)` for the current offset `o`,
with division truncating toward zero, each value wrapped modulo 2^16 into
-32768 .. 32767 as it is stored in the GPoint; so each coordinate is the stated
value whenever that value lies in -32768 .. 32767.  The projector is enabled with
offset (0,0) initially, `isometric_set_enabled true` enables it and keeps the
offset, and `isometric_set_projection_offset o` makes `o` the offset and keeps the
switch.  At offset (0,0), (-3,0,0) goes to (-3,-1) and (1,1,0) to a point with
y = 0. -/
theorem project_enabled (s : State) (v : Vec3) (h : s.s_enabled = true) :
    project s v =
        { x := (s.s_projection_offset.x + (v.x - v.y) + 32768) % 65536 - 32768
          y := (s.s_projection_offset.y + (Int.tdiv v.x 2 + Int.tdiv v.y 2) - v.z + 32768)
            % 65536 - 32768 }
      ∧ (-32768 ≤ s.s_projection_offset.x + (v.x - v.y)
          ∧ s.s_projection_offset.x + (v.x - v.y) ≤ 32767 →
          (project s v).x = s.s_projection_offset.x + (v.x - v.y))
      ∧ (-32768 ≤ s.s_projection_offset.y + (Int.tdiv v.x 2 + Int.tdiv v.y 2) - v.z
          ∧ s.s_projection_offset.y + (Int.tdiv v.x 2 + Int.tdiv v.y 2) - v.z ≤ 32767 →
          (project s v).y
            = s.s_projection_offset.y + (Int.tdiv v.x 2 + Int.tdiv v.y 2) - v.z)
      ∧ (initial.s_enabled = true ∧ initial.s_projection_offset = { x := 0, y := 0 })
      ∧ (∀ t : State, (isometric_set_enabled true t).s_enabled = true
          ∧ (isometric_set_enabled true t).s_projection_offset = t.s_projection_offset)
      ∧ (∀ (t : State) (o : GPoint), (isometric_set_projection_offset o t).s_projection_offset = o
          ∧ (isometric_set_projection_offset o t).s_enabled = t.s_enabled)
      ∧ Int.tdiv (-3) 2 = -1
      ∧ project initial { x := -3, y := 0, z := 0 } = { x := -3, y := -1 }
      ∧ (project initial { x := 1, y := 1, z := 0 }).y = 0 := by
  refine ⟨?_, fun hx => ?_, fun hy => ?_, ⟨rfl, rfl⟩, fun t => ⟨rfl, rfl⟩,
    fun t o => ⟨rfl, rfl⟩, by decide, by decide, by decide⟩
  · simp only [project, h, if_true, to_int16]
  · simp only [project, h, if_true]
    exact to_int16_fits _ hx.1 hx.2
  · simp only [project, h, if_true]
    exact to_int16_fits _ hy.1 hy.2

/-- Witness of `project_enabled`: after enabling the projector and setting the
offset (10,20), the point (-3,5,2) goes to a point with x = 10 + (-3 - 5). -/
theorem project_enabled_witness :
    (project (isometric_set_projection_offset { x := 10, y := 20 }
        (isometric_set_enabled true initial)) { x := -3, y := 5, z := 2 }).x
      = 10 + (-3 - 5) :=
  (project_enabled (isometric_set_projection_offset { x := 10, y := 20 }
    (isometric_set_enabled true initial)) { x := -3, y := 5, z := 2 } rfl).2.1
    ⟨by decide, by decide⟩

/-- C2 as stated fails: with the projector disabled the coordinates are still
stored in the `int16_t` fields of a GPoint, so (40000,0,0) goes to (-25536,0), not
to (40000,0). -/
theorem project_disabled_narrows :
    project (isometric_set_enabled false initial) { x := 40000, y := 0, z := 0 }
        = { x := -25536, y := 0 }
      ∧ project (isometric_set_enabled false initial) { x := 40000, y := 0, z := 0 }
        ≠ { x := 40000, y := 0 } := by
  refine ⟨by decide, by decide⟩

/-- C2, amended: with the projector disabled, `project v` is `(v.x, v.y)` with each
coordinate wrapped modulo 2^16 into -32768 .. 32767, hence `(v.x, v.y)` itself
whenever both lie in that range; whatever offset was set before or is set
afterwards, and whatever `v.z` is. -/
theorem project_disabled (s : State) (v : Vec3) (h : s.s_enabled = false) :
    project s v
        = { x := (v.x + 32768) % 65536 - 32768, y := (v.y + 32768) % 65536 - 32768 }
      ∧ (-32768 ≤ v.x ∧ v.x ≤ 32767 ∧ -32768 ≤ v.y ∧ v.y ≤ 32767 →
          project s v = { x := v.x, y := v.y })
      ∧ (∀ t : State, (isometric_set_enabled false t).s_enabled = false)
      ∧ (∀ (t : State) (o : GPoint) (z : Int),
          project (isometric_set_enabled false (isometric_set_projection_offset o t))
              { x := v.x, y := v.y, z := z } = project s v
          ∧ project (isometric_set_projection_offset o (isometric_set_enabled false t))
              { x := v.x, y := v.y, z := z } = project s v) := by
  have e : project s v
      = { x := (v.x + 32768) % 65536 - 32768, y := (v.y + 32768) % 65536 - 32768 } := by
    simp [project, h, to_int16]
  refine ⟨e, fun hr => ?_, fun t => rfl, fun t o z => ⟨by rw [e]; rfl, by rw [e]; rfl⟩⟩
  rw [e]
  have hx : (v.x + 32768) % 65536 - 32768 = v.x := by omega
  have hy : (v.y + 32768) % 65536 - 32768 = v.y := by omega
  rw [hx, hy]

/-- Witness of `project_disabled`: with offset (10,20) set and the projector then
disabled, (7,-4,99) goes to (7,-4). -/
theorem project_disabled_witness :
    project (isometric_set_enabled false (isometric_set_projection_offset { x := 10, y := 20 }
        initial)) { x := 7, y := -4, z := 99 } = { x := 7, y := -4 } :=
  (project_disabled (isometric_set_enabled false (isometric_set_projection_offset
    { x := 10, y := 20 } initial)) { x := 7, y := -4, z := 99 } rfl).2.1
    ⟨by decide, by decide, by decide, by decide⟩

/-! ### Pixel write -/

theorem set_pixel_off (s : State) (p : GPoint) (c : GColor) (h : ¬ on_display p) :
    set_pixel s p c = .ok s := by
  simp [set_pixel, h]

theorem set_pixel_on (s : State) (p : GPoint) (c : GColor) (data : List Nat)
    (hd : s.s_fb_data = some data) (h : on_display p)
    (h0 : 0 ≤ pixel_offset s p) (h1 : pixel_offset s p < data.length) :
    set_pixel s p c
      = .ok { s with s_fb_data := some (data.set (pixel_offset s p).toNat (color_byte c)) } := by
  simp [set_pixel, h, hd, h0, h1]

/-- C3: on an active render target of width `W` with pixel array `data`:
if `0 ≤ p.x < 144` and `0 ≤ p.y < 168`, then `set_pixel p c` stores the byte of
`c`, the value `c.argb` as a `uint8_t`, at offset `p.y * W + p.x` and changes no
other offset (the offset lying inside the pixel array; a write outside it is a
fault); otherwise it changes nothing.
(144,0), (-1,0), (0,168) and (0,-1) fail the test and (143,167) passes it. -/
theorem set_pixel_spec (s : State) (data : List Nat) (W : Int) (p : GPoint) (c : GColor)
    (hd : s.s_fb_data = some data) (hW : s.s_fb_size.w = W) :
    ((0 ≤ p.x ∧ p.x < 144 ∧ 0 ≤ p.y ∧ p.y < 168) →
        (0 ≤ p.y * W + p.x ∧ p.y * W + p.x < data.length →
          ∃ data1 : List Nat,
            set_pixel s p c = .ok { s with s_fb_data := some data1 }
            ∧ data1.length = data.length
            ∧ data1[(p.y * W + p.x).toNat]? = some (c.argb % 256)
            ∧ ∀ j : Nat, j ≠ (p.y * W + p.x).toNat → data1[j]? = data[j]?)
        ∧ (¬ (0 ≤ p.y * W + p.x ∧ p.y * W + p.x < data.length) →
          set_pixel s p c = .error .outOfRange))
      ∧ (¬ (0 ≤ p.x ∧ p.x < 144 ∧ 0 ≤ p.y ∧ p.y < 168) → set_pixel s p c = .ok s)
      ∧ set_pixel s { x := 144, y := 0 } c = .ok s
      ∧ set_pixel s { x := -1, y := 0 } c = .ok s
      ∧ set_pixel s { x := 0, y := 168 } c = .ok s
      ∧ set_pixel s { x := 0, y := -1 } c = .ok s
      ∧ on_display { x := 143, y := 167 } := by
  subst hW
  refine ⟨fun hv => ⟨fun hr => ?_, fun hr => ?_⟩, fun hv => ?_, ?_, ?_, ?_, ?_, ?_⟩
  · have hv1 : on_display p := ⟨hv.1, hv.2.1, hv.2.2.1, hv.2.2.2⟩
    refine ⟨data.set (pixel_offset s p).toNat (color_byte c),
      set_pixel_on s p c data hd hv1 hr.1 hr.2, by simp, ?_, ?_⟩
    · have hlt : (p.y * s.s_fb_size.w + p.x).toNat < data.length := by omega
      simp [pixel_offset, List.getElem?_set, hlt, color_byte]
    · intro j hj
      have hj1 : (p.y * s.s_fb_size.w + p.x).toNat ≠ j := fun e => hj e.symm
      simp [pixel_offset, List.getElem?_set, hj1]
  · have hv1 : on_display p := ⟨hv.1, hv.2.1, hv.2.2.1, hv.2.2.2⟩
    have hr1 : ¬ (0 ≤ pixel_offset s p ∧ pixel_offset s p < data.length) := hr
    simp only [set_pixel, hv1, hd, if_true, hr1, if_false]
  · exact set_pixel_off s p c (fun hp => hv ⟨hp.1, hp.2.1, hp.2.2.1, hp.2.2.2⟩)
  · exact set_pixel_off s _ c (by decide)
  · exact set_pixel_off s _ c (by decide)
  · exact set_pixel_off s _ c (by decide)
  · exact set_pixel_off s _ c (by decide)
  · decide

/-- Witness of `set_pixel_spec`: on a 144x168 target, writing colour 7 at (143,167)
succeeds, and writing at (144,0) leaves the state as it is. -/
theorem set_pixel_spec_witness :
    (∃ data1 : List Nat,
        set_pixel display_target { x := 143, y := 167 } { argb := 7 }
          = .ok { display_target with s_fb_data := some data1 }
        ∧ data1.length = (List.replicate 24192 0).length
        ∧ data1[((167 : Int) * 144 + 143).toNat]? = some 7
        ∧ ∀ j : Nat, j ≠ ((167 : Int) * 144 + 143).toNat →
            data1[j]? = (List.replicate 24192 0)[j]?)
      ∧ set_pixel display_target { x := 144, y := 0 } { argb := 7 } = .ok display_target :=
  have h := set_pixel_spec display_target (List.replicate 24192 0) 144
    { x := 143, y := 167 } { argb := 7 } rfl rfl
  ⟨(h.1 (by decide)).1 ⟨by decide, by rw [List.length_replicate]; decide⟩, h.2.2.1⟩



/-! ### The line walk -/

theorem xmajor_iter (dx sx dy sy : Int) (v0 : LineVars) (hdy : 0 ≤ dy) (hlt : dy < dx)
    (he0 : 0 ≤ v0.err) (he1 : v0.err < dx) (k : Nat) :
    ∃ b : Int, 0 ≤ b ∧ b ≤ k
      ∧ ((bresenham_step dx sx dy sy)^[k] v0).start.x = v0.start.x + sx * k
      ∧ ((bresenham_step dx sx dy sy)^[k] v0).start.y = v0.start.y + sy * b
      ∧ ((bresenham_step dx sx dy sy)^[k] v0).err = v0.err - k * dy + b * dx
      ∧ 0 ≤ ((bresenham_step dx sx dy sy)^[k] v0).err
      ∧ ((bresenham_step dx sx dy sy)^[k] v0).err < dx := by
  induction k with
  | zero => exact ⟨0, le_refl _, by simp, by simp, by simp, by simp, he0, he1⟩
  | succ k ih =>
    obtain ⟨b, hb0, hbk, hx, hy, he, hl, hu⟩ := ih
    rw [Function.iterate_succ_apply']
    generalize (bresenham_step dx sx dy sy)^[k] v0 = v at hx hy he hl hu
    have hgx : v.err > -dx := by omega
    by_cases hc : v.err < dy
    · refine ⟨b + 1, by omega, by push_cast; omega, ?_, ?_, ?_, ?_, ?_⟩ <;>
        simp only [bresenham_step, hgx, hc, if_true] <;> push_cast
      · rw [hx]; ring
      · rw [hy]; ring
      · rw [he]; ring
      · omega
      · omega
    · refine ⟨b, hb0, by push_cast; omega, ?_, ?_, ?_, ?_, ?_⟩ <;>
        simp only [bresenham_step, hgx, hc, if_true, if_false] <;> push_cast
      · rw [hx]; ring
      · rw [hy]
      · rw [he]; ring
      · omega
      · omega

theorem ymajor_iter (dx sx dy sy : Int) (v0 : LineVars) (hdx : 0 ≤ dx) (hle : dx ≤ dy)
    (he0 : -dy < v0.err) (he1 : v0.err ≤ 0) (k : Nat) :
    ∃ a : Int, 0 ≤ a ∧ a ≤ k
      ∧ ((bresenham_step dx sx dy sy)^[k] v0).start.x = v0.start.x + sx * a
      ∧ ((bresenham_step dx sx dy sy)^[k] v0).start.y = v0.start.y + sy * k
      ∧ ((bresenham_step dx sx dy sy)^[k] v0).err = v0.err - a * dy + k * dx
      ∧ -dy < ((bresenham_step dx sx dy sy)^[k] v0).err
      ∧ ((bresenham_step dx sx dy sy)^[k] v0).err ≤ 0 := by
  induction k with
  | zero => exact ⟨0, le_refl _, by simp, by simp, by simp, by simp, he0, he1⟩
  | succ k ih =>
    obtain ⟨a, ha0, hak, hx, hy, he, hl, hu⟩ := ih
    rw [Function.iterate_succ_apply']
    generalize (bresenham_step dx sx dy sy)^[k] v0 = v at hx hy he hl hu
    have hgy : v.err < dy := by omega
    by_cases hc : v.err > -dx
    · refine ⟨a + 1, by omega, by push_cast; omega, ?_, ?_, ?_, ?_, ?_⟩ <;>
        simp only [bresenham_step, hgy, hc, if_true] <;> push_cast
      · rw [hx]; ring
      · rw [hy]; ring
      · rw [he]; ring
      · omega
      · omega
    · refine ⟨a, ha0, by push_cast; omega, ?_, ?_, ?_, ?_, ?_⟩ <;>
        simp only [bresenham_step, hgy, hc, if_true, if_false] <;> push_cast
      · rw [hx]
      · rw [hy]; ring
      · rw [he]; ring
      · omega
      · omega



theorem c_abs_nonneg (n : Int) : 0 ≤ c_abs n := by
  unfold c_abs; split <;> omega

theorem line_dx_nonneg (start finish : GPoint) : 0 ≤ line_dx start finish := c_abs_nonneg _

theorem line_dy_nonneg (start finish : GPoint) : 0 ≤ line_dy start finish := c_abs_nonneg _

theorem line_sx_cases (start finish : GPoint) :
    line_sx start finish = 1 ∨ line_sx start finish = -1 := by
  unfold line_sx; split <;> simp

theorem line_sy_cases (start finish : GPoint) :
    line_sy start finish = 1 ∨ line_sy start finish = -1 := by
  unfold line_sy; split <;> simp

theorem line_finish_x (start finish : GPoint) :
    finish.x = start.x + line_sx start finish * line_dx start finish := by
  unfold line_sx line_dx c_abs; split <;> split <;> omega

theorem line_finish_y (start finish : GPoint) :
    finish.y = start.y + line_sy start finish * line_dy start finish := by
  unfold line_sy line_dy c_abs; split <;> split <;> omega

theorem tdiv_two_nonneg (n : Int) (h : 0 ≤ n) : Int.tdiv n 2 = n / 2 :=
  Int.tdiv_eq_ediv h (by decide)

theorem tdiv_two_neg (n : Int) (h : 0 ≤ n) : Int.tdiv (-n) 2 = -(n / 2) := by
  rw [Int.neg_tdiv, tdiv_two_nonneg n h]

theorem line_err_xmajor (start finish : GPoint)
    (h : line_dy start finish < line_dx start finish) :
    0 ≤ line_err start finish ∧ line_err start finish < line_dx start finish := by
  have h0 := line_dy_nonneg start finish
  unfold line_err
  rw [if_pos h, tdiv_two_nonneg _ (by omega)]
  omega

theorem line_err_ymajor (start finish : GPoint)
    (h : line_dx start finish ≤ line_dy start finish) (hpos : 0 < line_dy start finish) :
    -line_dy start finish < line_err start finish ∧ line_err start finish ≤ 0 := by
  unfold line_err
  rw [if_neg (by omega), tdiv_two_neg _ (by omega)]
  omega

theorem line_walk_full (start finish : GPoint) (k : Nat)
    (hk : (k : Int) ≤ max (line_dx start finish) (line_dy start finish)) :
    ∃ a b : Int, 0 ≤ a ∧ a ≤ line_dx start finish ∧ 0 ≤ b ∧ b ≤ line_dy start finish
      ∧ max a b = k
      ∧ ((bresenham_step (line_dx start finish) (line_sx start finish) (line_dy start finish)
            (line_sy start finish))^[k] (line_init start finish)).start
          = { x := start.x + line_sx start finish * a, y := start.y + line_sy start finish * b }
      ∧ ((k : Int) = max (line_dx start finish) (line_dy start finish) →
          a = line_dx start finish ∧ b = line_dy start finish)
      ∧ (line_dy start finish ≤ line_dx start finish → a = k)
      ∧ (line_dx start finish ≤ line_dy start finish → b = k) := by
  have hdx := line_dx_nonneg start finish
  have hdy := line_dy_nonneg start finish
  generalize hDX : line_dx start finish = dx at *
  generalize hDY : line_dy start finish = dy at *
  rcases lt_or_le dy dx with hlt | hle
  · -- the walk advances in x on every iteration
    have herr := line_err_xmajor start finish (by rw [hDX, hDY]; exact hlt)
    rw [hDX] at herr
    obtain ⟨b, hb0, hbk, hx, hy, he, hl, hu⟩ :=
      xmajor_iter dx (line_sx start finish) dy (line_sy start finish) (line_init start finish)
        hdy hlt herr.1 herr.2 k
    have hkdx : (k : Int) ≤ dx := by rw [max_eq_left (le_of_lt hlt)] at hk; exact hk
    have e0 : (line_init start finish).err = line_err start finish := rfl
    rw [e0] at he
    have hbdy : b ≤ dy := by
      by_contra hcon
      have h1 : (dy + 1) * dx ≤ b * dx := mul_le_mul_of_nonneg_right (by omega) hdx
      have h2 : (k : Int) * dy ≤ dx * dy := mul_le_mul_of_nonneg_right hkdx hdy
      linarith
    refine ⟨k, b, by omega, hkdx, hb0, hbdy, max_eq_left hbk, ?_, ?_, fun _ => rfl,
      fun hcon => absurd hcon (not_le.2 hlt)⟩
    · cases hv : (bresenham_step dx (line_sx start finish) dy (line_sy start finish))^[k]
        (line_init start finish) with
      | mk p e =>
        rw [hv] at hx hy
        cases p with
        | mk px py => simpa using ⟨hx, hy⟩
    · intro hmax
      rw [max_eq_left (le_of_lt hlt)] at hmax
      refine ⟨hmax, ?_⟩
      by_contra hcon
      have h1 : b * dx ≤ (dy - 1) * dx := mul_le_mul_of_nonneg_right (by omega) hdx
      rw [hmax] at he
      linarith
  · rcases eq_or_lt_of_le hdy with hz | hpos
    · -- start and finish coincide
      have hdx0 : dx = 0 := by omega
      have hk0 : k = 0 := by
        rw [← hz, hdx0] at hk; simpa using hk
      subst hk0
      refine ⟨0, 0, le_refl _, hdx, le_refl _, hdy, by simp, ?_, ?_, fun _ => by simp,
        fun _ => by simp⟩
      · simp [line_init]
      · intro _; omega
    · -- the walk advances in y on every iteration
      have herr := line_err_ymajor start finish (by rw [hDX, hDY]; exact hle)
        (by rw [hDY]; exact hpos)
      rw [hDY] at herr
      obtain ⟨a, ha0, hak, hx, hy, he, hl, hu⟩ :=
        ymajor_iter dx (line_sx start finish) dy (line_sy start finish) (line_init start finish)
          hdx hle herr.1 herr.2 k
      have hkdy : (k : Int) ≤ dy := by rw [max_eq_right hle] at hk; exact hk
      have e0 : (line_init start finish).err = line_err start finish := rfl
      rw [e0] at he
      have hadx : a ≤ dx := by
        by_contra hcon
        have h1 : (dx + 1) * dy ≤ a * dy := mul_le_mul_of_nonneg_right (by omega) hdy
        have h2 : (k : Int) * dx ≤ dy * dx := mul_le_mul_of_nonneg_right hkdy hdx
        linarith
      refine ⟨a, k, ha0, hadx, by omega, hkdy, max_eq_right hak, ?_, ?_, ?_, fun _ => rfl⟩
      · cases hv : (bresenham_step dx (line_sx start finish) dy (line_sy start finish))^[k]
          (line_init start finish) with
        | mk p e =>
          rw [hv] at hx hy
          cases p with
          | mk px py => simpa using ⟨hx, hy⟩
      · intro hmax
        rw [max_eq_right hle] at hmax
        refine ⟨?_, hmax⟩
        by_contra hcon
        have h1 : a * dy ≤ (dx - 1) * dy := mul_le_mul_of_nonneg_right (by omega) hdy
        rw [hmax] at he
        linarith
      · intro htie
        have hdd : dx = dy := le_antisymm hle htie
        by_contra hcon
        have h1 : 1 * dy ≤ ((k : Int) - a) * dy := mul_le_mul_of_nonneg_right (by omega) hdy
        have h2 : (k : Int) * dx = k * dy := by rw [hdd]
        linarith [herr.1, herr.2]

theorem line_walk (start finish : GPoint) (k : Nat)
    (hk : (k : Int) ≤ max (line_dx start finish) (line_dy start finish)) :
    ∃ a b : Int, 0 ≤ a ∧ a ≤ line_dx start finish ∧ 0 ≤ b ∧ b ≤ line_dy start finish
      ∧ max a b = k
      ∧ ((bresenham_step (line_dx start finish) (line_sx start finish) (line_dy start finish)
            (line_sy start finish))^[k] (line_init start finish)).start
          = { x := start.x + line_sx start finish * a, y := start.y + line_sy start finish * b }
      ∧ ((k : Int) = max (line_dx start finish) (line_dy start finish) →
          a = line_dx start finish ∧ b = line_dy start finish) := by
  obtain ⟨a, b, h1, h2, h3, h4, h5, h6, h7, _⟩ := line_walk_full start finish k hk
  exact ⟨a, b, h1, h2, h3, h4, h5, h6, h7⟩

theorem gpoint_eq_iff (p q : GPoint) : (p.x = q.x ∧ p.y = q.y) ↔ p = q := by
  cases p; cases q; simp

theorem bresenham_trace_eq (dx sx dy sy : Int) (finish : GPoint) (n : Nat) :
    ∀ (v : LineVars) (fuel : Nat),
      (∀ j : Nat, j < n → ((bresenham_step dx sx dy sy)^[j] v).start ≠ finish) →
      ((bresenham_step dx sx dy sy)^[n] v).start = finish → n < fuel →
      bresenham_trace dx sx dy sy finish fuel v
        = (List.range (n + 1)).map (fun j => ((bresenham_step dx sx dy sy)^[j] v).start) := by
  induction n with
  | zero =>
    intro v fuel _ hfin hfuel
    obtain ⟨f, rfl⟩ : ∃ f, fuel = f + 1 := ⟨fuel - 1, by omega⟩
    have hv : v.start = finish := by simpa using hfin
    simp [bresenham_trace, gpoint_eq_iff, hv, List.range_succ]
  | succ n ih =>
    intro v fuel hne hfin hfuel
    obtain ⟨f, rfl⟩ : ∃ f, fuel = f + 1 := ⟨fuel - 1, by omega⟩
    have hv : v.start ≠ finish := by simpa using hne 0 (Nat.succ_pos n)
    have hrec := ih (bresenham_step dx sx dy sy v) f
      (fun j hj => by
        have := hne (j + 1) (by omega)
        rwa [Function.iterate_succ_apply] at this)
      (by rwa [Function.iterate_succ_apply] at hfin) (by omega)
    rw [bresenham_trace, if_neg (by rw [gpoint_eq_iff]; exact hv), hrec,
      List.range_succ_eq_map (n + 1), List.map_cons, List.map_map]
    rfl

theorem bresenham_loop_eq_plot (dx sx dy sy : Int) (finish : GPoint) (color : GColor) (n : Nat) :
    ∀ (v : LineVars) (fuel : Nat) (s : State),
      ((bresenham_step dx sx dy sy)^[n] v).start = finish → n < fuel →
      bresenham_loop dx sx dy sy finish color fuel v s
        = plot_points color (bresenham_trace dx sx dy sy finish fuel v) s := by
  induction n with
  | zero =>
    intro v fuel s hfin hfuel
    obtain ⟨f, rfl⟩ : ∃ f, fuel = f + 1 := ⟨fuel - 1, by omega⟩
    have hv : v.start = finish := by simpa using hfin
    simp only [bresenham_loop, bresenham_trace, gpoint_eq_iff, hv, if_true, plot_points]
    cases set_pixel s finish color <;> rfl
  | succ n ih =>
    intro v fuel s hfin hfuel
    obtain ⟨f, rfl⟩ : ∃ f, fuel = f + 1 := ⟨fuel - 1, by omega⟩
    by_cases hv : v.start = finish
    · simp only [bresenham_loop, bresenham_trace, gpoint_eq_iff, hv, if_true, plot_points]
      cases set_pixel s finish color <;> rfl
    · simp only [bresenham_loop, bresenham_trace, gpoint_eq_iff, hv, if_false, plot_points]
      cases set_pixel s v.start color with
      | error e => rfl
      | ok s1 =>
        exact ih (bresenham_step dx sx dy sy v) f s1
          (by rwa [Function.iterate_succ_apply] at hfin) (by omega)

/-- The number of updates the loop of `bresenham_line` makes before it stops. -/
theorem line_fuel_eq (start finish : GPoint) :
    ((line_fuel start finish - 1 : Nat) : Int)
      = max (line_dx start finish) (line_dy start finish) := by
  have h1 := line_dx_nonneg start finish
  have h2 := line_dy_nonneg start finish
  unfold line_fuel
  simp only [Nat.add_sub_cancel]
  rw [Int.toNat_of_nonneg (le_max_of_le_left h1)]

theorem line_reach (start finish : GPoint) :
    ((bresenham_step (line_dx start finish) (line_sx start finish) (line_dy start finish)
        (line_sy start finish))^[line_fuel start finish - 1] (line_init start finish)).start
      = finish := by
  obtain ⟨a, b, _, _, _, _, _, hp, hfin⟩ :=
    line_walk start finish (line_fuel start finish - 1) (le_of_eq (line_fuel_eq start finish))
  obtain ⟨ha, hb⟩ := hfin (line_fuel_eq start finish)
  rw [hp, ha, hb, ← line_finish_x, ← line_finish_y]

theorem line_not_before (start finish : GPoint) (k : Nat) (hk : k < line_fuel start finish - 1) :
    ((bresenham_step (line_dx start finish) (line_sx start finish) (line_dy start finish)
        (line_sy start finish))^[k] (line_init start finish)).start ≠ finish := by
  have hn := line_fuel_eq start finish
  have hk1 : (k : Int) < max (line_dx start finish) (line_dy start finish) := by
    rw [← hn]; exact_mod_cast hk
  obtain ⟨a, b, ha0, ha, hb0, hb, hmax, hp, _⟩ := line_walk start finish k (le_of_lt hk1)
  rw [hp]
  intro hcon
  have hx : start.x + line_sx start finish * a = finish.x := congrArg GPoint.x hcon
  have hy : start.y + line_sy start finish * b = finish.y := congrArg GPoint.y hcon
  rw [line_finish_x start finish] at hx
  rw [line_finish_y start finish] at hy
  have hax : a = line_dx start finish := by
    rcases line_sx_cases start finish with h | h <;> rw [h] at hx <;> omega
  have hby : b = line_dy start finish := by
    rcases line_sy_cases start finish with h | h <;> rw [h] at hy <;> omega
  rw [hax, hby] at hmax
  omega

theorem line_points_eq (start finish : GPoint) :
    line_points start finish
      = (List.range (line_fuel start finish)).map (fun j =>
          ((bresenham_step (line_dx start finish) (line_sx start finish) (line_dy start finish)
            (line_sy start finish))^[j] (line_init start finish)).start) := by
  have h := bresenham_trace_eq (line_dx start finish) (line_sx start finish)
    (line_dy start finish) (line_sy start finish) finish (line_fuel start finish - 1)
    (line_init start finish) (line_fuel start finish) (line_not_before start finish)
    (line_reach start finish) (by unfold line_fuel; omega)
  have e : line_fuel start finish - 1 + 1 = line_fuel start finish := by unfold line_fuel; omega
  rw [e] at h
  exact h

theorem bresenham_line_eq_plot (start finish : GPoint) (color : GColor) (s : State) :
    bresenham_line start finish color s = plot_points color (line_points start finish) s :=
  bresenham_loop_eq_plot _ _ _ _ finish color (line_fuel start finish - 1) _ _ s
    (line_reach start finish) (by unfold line_fuel; omega)



theorem c_abs_eq_abs (n : Int) : c_abs n = |n| := by
  unfold c_abs
  split
  · rw [abs_of_neg (by assumption)]
  · rw [abs_of_nonneg (by omega)]

theorem set_pixel_ne_fuel (s : State) (p : GPoint) (c : GColor) :
    set_pixel s p c ≠ .error .outOfFuel := by
  unfold set_pixel
  split
  · split
    · simp
    · split <;> simp
  · simp

theorem plot_points_ne_fuel (c : GColor) (ps : List GPoint) :
    ∀ s : State, plot_points c ps s ≠ .error .outOfFuel := by
  induction ps with
  | nil => intro s; simp [plot_points]
  | cons p ps ih =>
    intro s
    unfold plot_points
    cases h : set_pixel s p c with
    | error e =>
      intro hcon
      have : e = Fault.outOfFuel := by simpa using hcon
      exact set_pixel_ne_fuel s p c (by rw [h, this])
    | ok s1 => exact ih s1

theorem line_points_length (start finish : GPoint) :
    ((line_points start finish).length : Int)
      = max (line_dx start finish) (line_dy start finish) + 1 := by
  rw [line_points_eq, List.length_map, List.length_range, ← line_fuel_eq]
  have : 1 ≤ line_fuel start finish := by unfold line_fuel; omega
  omega

theorem mem_line_points (start finish p : GPoint) :
    p ∈ line_points start finish ↔
      ∃ k : Nat, (k : Int) ≤ max (line_dx start finish) (line_dy start finish)
        ∧ ((bresenham_step (line_dx start finish) (line_sx start finish) (line_dy start finish)
            (line_sy start finish))^[k] (line_init start finish)).start = p := by
  have hn := line_fuel_eq start finish
  have h1 : 1 ≤ line_fuel start finish := by unfold line_fuel; omega
  rw [line_points_eq, List.mem_map]
  constructor
  · rintro ⟨k, hk, rfl⟩
    rw [List.mem_range] at hk
    exact ⟨k, by omega, rfl⟩
  · rintro ⟨k, hk, rfl⟩
    exact ⟨k, by rw [List.mem_range]; omega, rfl⟩

/-- C6: the loop of `bresenham_line` terminates for every start and finish: after
`max(|dx|, |dy|)` updates, and not earlier, the current point is `finish`, where the
loop stops; so with any iteration budget above that number the loop returns what
`bresenham_line` returns and never runs out of budget. -/
theorem bresenham_stops (start finish : GPoint) :
    ((bresenham_step (line_dx start finish) (line_sx start finish) (line_dy start finish)
        (line_sy start finish))^[line_fuel start finish - 1] (line_init start finish)).start
      = finish
    ∧ ((line_fuel start finish - 1 : Nat) : Int)
        = max |finish.x - start.x| |finish.y - start.y|
    ∧ (∀ k : Nat, k < line_fuel start finish - 1 →
        ((bresenham_step (line_dx start finish) (line_sx start finish) (line_dy start finish)
          (line_sy start finish))^[k] (line_init start finish)).start ≠ finish)
    ∧ ∀ (color : GColor) (s : State) (extra : Nat),
        bresenham_loop (line_dx start finish) (line_sx start finish) (line_dy start finish)
            (line_sy start finish) finish color (line_fuel start finish + extra)
            (line_init start finish) s
          = bresenham_line start finish color s
        ∧ bresenham_line start finish color s ≠ .error .outOfFuel := by
  refine ⟨line_reach start finish, ?_, line_not_before start finish, ?_⟩
  · rw [line_fuel_eq, line_dx, line_dy, c_abs_eq_abs, c_abs_eq_abs]
  · intro color s extra
    have h1 : 1 ≤ line_fuel start finish := by unfold line_fuel; omega
    have hl := bresenham_loop_eq_plot (line_dx start finish) (line_sx start finish)
      (line_dy start finish) (line_sy start finish) finish color (line_fuel start finish - 1)
      (line_init start finish) (line_fuel start finish + extra) s (line_reach start finish)
      (by omega)
    have ht := bresenham_trace_eq (line_dx start finish) (line_sx start finish)
      (line_dy start finish) (line_sy start finish) finish (line_fuel start finish - 1)
      (line_init start finish) (line_fuel start finish + extra) (line_not_before start finish)
      (line_reach start finish) (by omega)
    have e : line_fuel start finish - 1 + 1 = line_fuel start finish := by omega
    rw [e, ← line_points_eq] at ht
    rw [ht] at hl
    rw [bresenham_line_eq_plot]
    exact ⟨hl, plot_points_ne_fuel color _ s⟩

/-- Witness of `bresenham_stops`: on the way from (0,0) to (-2,-5) the current
point after 3 updates is not yet the end point. -/
theorem bresenham_stops_witness :
    ((bresenham_step (line_dx { x := 0, y := 0 } { x := -2, y := -5 })
        (line_sx { x := 0, y := 0 } { x := -2, y := -5 })
        (line_dy { x := 0, y := 0 } { x := -2, y := -5 })
        (line_sy { x := 0, y := 0 } { x := -2, y := -5 }))^[3]
        (line_init { x := 0, y := 0 } { x := -2, y := -5 })).start ≠ { x := -2, y := -5 } :=
  (bresenham_stops { x := 0, y := 0 } { x := -2, y := -5 }).2.2.1 3 (by decide)

/-- C7: the points `bresenham_line start finish` passes to `set_pixel` are the
list `line_points start finish`; it begins with `start`, ends with `finish` and has
`max(|finish.x - start.x|, |finish.y - start.y|) + 1` entries, a single one when
the two points coincide. -/
theorem line_points_ends (start finish : GPoint) :
    (∀ (color : GColor) (s : State),
        bresenham_line start finish color s = plot_points color (line_points start finish) s)
    ∧ (line_points start finish).head? = some start
    ∧ (line_points start finish).getLast? = some finish
    ∧ ((line_points start finish).length : Int)
        = max |finish.x - start.x| |finish.y - start.y| + 1
    ∧ line_points start start = [start] := by
  have h1 : 1 ≤ line_fuel start finish := by unfold line_fuel; omega
  obtain ⟨n, hn⟩ : ∃ n, line_fuel start finish = n + 1 := ⟨line_fuel start finish - 1, by omega⟩
  refine ⟨fun color s => bresenham_line_eq_plot start finish color s, ?_, ?_, ?_, ?_⟩
  · rw [line_points_eq, hn, List.range_succ_eq_map]
    simp [line_init]
  · have hr := line_reach start finish
    rw [hn] at hr
    rw [line_points_eq, hn, List.range_succ, List.map_append]
    simpa using hr
  · rw [line_points_length, line_dx, line_dy, c_abs_eq_abs, c_abs_eq_abs]
  · have e : line_fuel start start = 1 := by simp [line_fuel, line_dx, line_dy, c_abs]
    rw [line_points_eq, e]
    simp [line_init, List.range_succ]



theorem horizontal_walk (x0 x1 y : Int) (k : Nat)
    (hk : (k : Int) ≤ line_dx { x := x0, y := y } { x := x1, y := y }) :
    ((bresenham_step (line_dx { x := x0, y := y } { x := x1, y := y })
        (line_sx { x := x0, y := y } { x := x1, y := y })
        (line_dy { x := x0, y := y } { x := x1, y := y })
        (line_sy { x := x0, y := y } { x := x1, y := y }))^[k]
        (line_init { x := x0, y := y } { x := x1, y := y })).start
      = { x := x0 + line_sx { x := x0, y := y } { x := x1, y := y } * k, y := y } := by
  have hdy : line_dy { x := x0, y := y } { x := x1, y := y } = 0 := by simp [line_dy, c_abs]
  obtain ⟨a, b, ha0, ha, hb0, hb, hmax, hp, _⟩ :=
    line_walk { x := x0, y := y } { x := x1, y := y } k (le_max_of_le_left hk)
  rw [hdy] at hb
  have hb' : b = 0 := by omega
  have ha' : a = k := by rw [hb', max_eq_left ha0] at hmax; exact hmax
  rw [hp, hb', ha']
  simp

theorem vertical_walk (x y0 y1 : Int) (k : Nat)
    (hk : (k : Int) ≤ line_dy { x := x, y := y0 } { x := x, y := y1 }) :
    ((bresenham_step (line_dx { x := x, y := y0 } { x := x, y := y1 })
        (line_sx { x := x, y := y0 } { x := x, y := y1 })
        (line_dy { x := x, y := y0 } { x := x, y := y1 })
        (line_sy { x := x, y := y0 } { x := x, y := y1 }))^[k]
        (line_init { x := x, y := y0 } { x := x, y := y1 })).start
      = { x := x, y := y0 + line_sy { x := x, y := y0 } { x := x, y := y1 } * k } := by
  have hdx : line_dx { x := x, y := y0 } { x := x, y := y1 } = 0 := by simp [line_dx, c_abs]
  obtain ⟨a, b, ha0, ha, hb0, hb, hmax, hp, _⟩ :=
    line_walk { x := x, y := y0 } { x := x, y := y1 } k (le_max_of_le_right hk)
  rw [hdx] at ha
  have ha' : a = 0 := by omega
  have hb' : b = k := by rw [ha', max_eq_right hb0] at hmax; exact hmax
  rw [hp, ha', hb']
  simp

theorem mem_horizontal (x0 x1 y : Int) (p : GPoint) :
    p ∈ line_points { x := x0, y := y } { x := x1, y := y }
      ↔ p.y = y ∧ min x0 x1 ≤ p.x ∧ p.x ≤ max x0 x1 := by
  have hdy : line_dy { x := x0, y := y } { x := x1, y := y } = 0 := by simp [line_dy, c_abs]
  have hdx0 := line_dx_nonneg { x := x0, y := y } { x := x1, y := y }
  have hmaxd : max (line_dx { x := x0, y := y } { x := x1, y := y })
      (line_dy { x := x0, y := y } { x := x1, y := y })
      = line_dx { x := x0, y := y } { x := x1, y := y } := by rw [hdy]; exact max_eq_left hdx0
  rw [mem_line_points, hmaxd]
  constructor
  · rintro ⟨k, hk, rfl⟩
    rw [horizontal_walk x0 x1 y k hk]
    simp only [line_sx, line_dx, c_abs] at hk ⊢
    refine ⟨trivial, ?_, ?_⟩ <;> split at hk <;> split <;> omega
  · rintro ⟨hy, hlo, hhi⟩
    have hkd : ((Int.toNat (c_abs (p.x - x0)) : Nat) : Int)
        ≤ line_dx { x := x0, y := y } { x := x1, y := y } := by
      rw [Int.toNat_of_nonneg (c_abs_nonneg _)]
      simp only [line_dx, c_abs]
      split <;> split <;> omega
    refine ⟨Int.toNat (c_abs (p.x - x0)), hkd, ?_⟩
    rw [horizontal_walk x0 x1 y _ hkd, Int.toNat_of_nonneg (c_abs_nonneg _)]
    cases p with
    | mk px py =>
      simp only at hy hlo hhi
      subst hy
      simp only [line_sx, c_abs, GPoint.mk.injEq, and_true]
      split <;> split <;> omega

theorem mem_vertical (x y0 y1 : Int) (p : GPoint) :
    p ∈ line_points { x := x, y := y0 } { x := x, y := y1 }
      ↔ p.x = x ∧ min y0 y1 ≤ p.y ∧ p.y ≤ max y0 y1 := by
  have hdx : line_dx { x := x, y := y0 } { x := x, y := y1 } = 0 := by simp [line_dx, c_abs]
  have hdy0 := line_dy_nonneg { x := x, y := y0 } { x := x, y := y1 }
  have hmaxd : max (line_dx { x := x, y := y0 } { x := x, y := y1 })
      (line_dy { x := x, y := y0 } { x := x, y := y1 })
      = line_dy { x := x, y := y0 } { x := x, y := y1 } := by rw [hdx]; exact max_eq_right hdy0
  rw [mem_line_points, hmaxd]
  constructor
  · rintro ⟨k, hk, rfl⟩
    rw [vertical_walk x y0 y1 k hk]
    simp only [line_sy, line_dy, c_abs] at hk ⊢
    refine ⟨trivial, ?_, ?_⟩ <;> split at hk <;> split <;> omega
  · rintro ⟨hx, hlo, hhi⟩
    have hkd : ((Int.toNat (c_abs (p.y - y0)) : Nat) : Int)
        ≤ line_dy { x := x, y := y0 } { x := x, y := y1 } := by
      rw [Int.toNat_of_nonneg (c_abs_nonneg _)]
      simp only [line_dy, c_abs]
      split <;> split <;> omega
    refine ⟨Int.toNat (c_abs (p.y - y0)), hkd, ?_⟩
    rw [vertical_walk x y0 y1 _ hkd, Int.toNat_of_nonneg (c_abs_nonneg _)]
    cases p with
    | mk px py =>
      simp only at hx hlo hhi
      subst hx
      simp only [line_sy, c_abs, GPoint.mk.injEq, true_and]
      split <;> split <;> omega

/-- C8: for an axis-aligned segment `bresenham_line` plots exactly the integer
points of the segment, each once: the points of a horizontal line are those with
the same `y` and `x` between the two end columns, the points of a vertical line
those with the same `x` and `y` between the two end rows, and there are as many
plotted points as the segment has integer points.  (0,0)-(5,0) plots the six
points (0,0) ... (5,0) and (0,0)-(0,5) the six points (0,0) ... (0,5). -/
theorem line_points_axis (x0 x1 y0 y1 : Int) :
    (∀ p : GPoint, p ∈ line_points { x := x0, y := y0 } { x := x1, y := y0 }
        ↔ p.y = y0 ∧ min x0 x1 ≤ p.x ∧ p.x ≤ max x0 x1)
    ∧ ((line_points { x := x0, y := y0 } { x := x1, y := y0 }).length : Int) = |x1 - x0| + 1
    ∧ (∀ p : GPoint, p ∈ line_points { x := x0, y := y0 } { x := x0, y := y1 }
        ↔ p.x = x0 ∧ min y0 y1 ≤ p.y ∧ p.y ≤ max y0 y1)
    ∧ ((line_points { x := x0, y := y0 } { x := x0, y := y1 }).length : Int) = |y1 - y0| + 1
    ∧ line_points { x := 0, y := 0 } { x := 5, y := 0 }
        = [{ x := 0, y := 0 }, { x := 1, y := 0 }, { x := 2, y := 0 }, { x := 3, y := 0 },
           { x := 4, y := 0 }, { x := 5, y := 0 }]
    ∧ line_points { x := 0, y := 0 } { x := 0, y := 5 }
        = [{ x := 0, y := 0 }, { x := 0, y := 1 }, { x := 0, y := 2 }, { x := 0, y := 3 },
           { x := 0, y := 4 }, { x := 0, y := 5 }] := by
  refine ⟨mem_horizontal x0 x1 y0, ?_, mem_vertical x0 y0 y1, ?_, by decide, by decide⟩
  · rw [line_points_length, line_dx, line_dy, c_abs_eq_abs, c_abs_eq_abs]
    simp
  · rw [line_points_length, line_dx, line_dy, c_abs_eq_abs, c_abs_eq_abs]
    simp


/-! ### Drawing calls as sequences of pixel writes -/

theorem set_pixel_keeps (s s1 : State) (p : GPoint) (c : GColor) (h : set_pixel s p c = .ok s1) :
    s1.s_enabled = s.s_enabled ∧ s1.s_projection_offset = s.s_projection_offset
      ∧ s1.s_fb = s.s_fb ∧ s1.s_fb_size = s.s_fb_size := by
  unfold set_pixel at h
  split at h
  · split at h
    · simp at h
    · split at h
      · simp only [Except.ok.injEq] at h
        subst h
        exact ⟨rfl, rfl, rfl, rfl⟩
      · simp at h
  · simp only [Except.ok.injEq] at h
    subst h
    exact ⟨rfl, rfl, rfl, rfl⟩

theorem plot_points_keeps (c : GColor) (ps : List GPoint) :
    ∀ s s1 : State, plot_points c ps s = .ok s1 →
      s1.s_enabled = s.s_enabled ∧ s1.s_projection_offset = s.s_projection_offset
        ∧ s1.s_fb = s.s_fb ∧ s1.s_fb_size = s.s_fb_size := by
  induction ps with
  | nil =>
    intro s s1 h
    simp only [plot_points, Except.ok.injEq] at h
    subst h
    exact ⟨rfl, rfl, rfl, rfl⟩
  | cons p ps ih =>
    intro s s1 h
    unfold plot_points at h
    cases h0 : set_pixel s p c with
    | error e => rw [h0] at h; simp at h
    | ok s0 =>
      rw [h0] at h
      obtain ⟨a1, a2, a3, a4⟩ := set_pixel_keeps s s0 p c h0
      obtain ⟨b1, b2, b3, b4⟩ := ih s0 s1 h
      exact ⟨b1.trans a1, b2.trans a2, b3.trans a3, b4.trans a4⟩

theorem project_congr (s s1 : State) (h1 : s1.s_enabled = s.s_enabled)
    (h2 : s1.s_projection_offset = s.s_projection_offset) : project s1 = project s := by
  funext v
  simp [project, h1, h2]

theorem plot_points_project (c : GColor) (ps : List GPoint) (s s1 : State)
    (h : plot_points c ps s = .ok s1) : project s1 = project s :=
  project_congr s s1 (plot_points_keeps c ps s s1 h).1 (plot_points_keeps c ps s s1 h).2.1

theorem plot_points_append (c : GColor) (ps qs : List GPoint) :
    ∀ s : State, plot_points c (ps ++ qs) s = (plot_points c ps s >>= plot_points c qs) := by
  induction ps with
  | nil => intro s; rfl
  | cons p ps ih =>
    intro s
    simp only [List.cons_append, plot_points]
    cases set_pixel s p c with
    | error e => rfl
    | ok s0 => exact ih s0

theorem plots_line (c : GColor) (a b : Vec3) :
    Plots c (fun s => bresenham_line (project s a) (project s b) c s)
      (fun P => line_points (P a) (P b)) :=
  fun s => bresenham_line_eq_plot _ _ c s

theorem plots_bind (c : GColor) (f g : State → Except Fault State)
    (p q : (Vec3 → GPoint) → List GPoint) (hf : Plots c f p) (hg : Plots c g q) :
    Plots c (fun s => f s >>= g) (fun P => p P ++ q P) := by
  intro s
  show (f s >>= g) = plot_points c (p (project s) ++ q (project s)) s
  rw [plot_points_append, hf s]
  cases h : plot_points c (p (project s)) s with
  | error e => rfl
  | ok s1 =>
    show g s1 = plot_points c (q (project s)) s1
    rw [hg s1, plot_points_project c _ s s1 h]

theorem plots_draw_rect (c : GColor) (origin : Vec3) (size : GSize) :
    Plots c (isometric_draw_rect origin size c) (fun P => rect_points P origin size) :=
  plots_bind c _ _ _ _ (plots_line c _ _)
    (plots_bind c _ _ _ _ (plots_line c _ _)
      (plots_bind c _ _ _ _ (plots_line c _ _) (plots_line c _ _)))

theorem plots_draw_box (c : GColor) (origin : Vec3) (size : GSize) (z_height : Int) :
    Plots c (isometric_draw_box origin size z_height c)
      (fun P => draw_box_points P origin size z_height) :=
  plots_bind c _ _ _ _ (plots_line c _ _)
    (plots_bind c _ _ _ _ (plots_line c _ _)
      (plots_bind c _ _ _ _ (plots_draw_rect c _ size)
        (plots_bind c _ _ _ _ (plots_line c _ _)
          (plots_bind c _ _ _ _ (plots_line c _ _) (plots_line c _ _)))))

theorem plots_draw_pixel (c : GColor) (point : Vec3) :
    Plots c (isometric_draw_pixel point c) (fun P => [P point]) := by
  intro s
  simp only [isometric_draw_pixel, plot_points]
  cases set_pixel s (project s point) c <;> rfl

theorem for_loop_plots (c : GColor) (body : Int → State → Except Fault State)
    (pts : (Vec3 → GPoint) → Int → List GPoint)
    (hbody : ∀ i : Int, Plots c (body i) (fun P => pts P i)) (bound : Int) (n : Nat) :
    ∀ (first : Int) (fuel : Nat) (s : State), n = (bound - first).toNat → n < fuel →
      for_loop body bound fuel first s
        = (plot_points c (span_points (pts (project s)) n first) s).map
            (fun s1 => (first + n, s1)) := by
  induction n with
  | zero =>
    intro first fuel s hn hfuel
    obtain ⟨f, rfl⟩ : ∃ f, fuel = f + 1 := ⟨fuel - 1, by omega⟩
    have hnot : ¬ first < bound := by omega
    simp [for_loop, hnot, span_points, plot_points, Except.map]
  | succ n ih =>
    intro first fuel s hn hfuel
    obtain ⟨f, rfl⟩ : ∃ f, fuel = f + 1 := ⟨fuel - 1, by omega⟩
    have hlt : first < bound := by omega
    simp only [for_loop, hlt, if_true, span_points]
    rw [plot_points_append, hbody first s]
    cases h : plot_points c (pts (project s) first) s with
    | error e => rfl
    | ok s1 =>
      have hrec := ih (first + 1) f s1 (by omega) (by omega)
      rw [plot_points_project c _ s s1 h] at hrec
      show for_loop body bound f (first + 1) s1
        = (plot_points c (span_points (pts (project s)) n (first + 1)) s1).map
            (fun s2 => (first + ((n + 1 : Nat) : Int), s2))
      rw [hrec]
      have e : first + 1 + (n : Int) = first + ((n + 1 : Nat) : Int) := by push_cast; ring
      rw [e]

theorem plots_fill_rect_layer (c : GColor) (origin : Vec3) (size : GSize) :
    Plots c (fill_rect_layer origin size c) (fun P => layer_points P origin size) := by
  intro s
  have hn : (origin.y + size.h - origin.y).toNat = size.h.toNat := by
    congr 1; ring
  have h := for_loop_plots c
    (fun y s => bresenham_line (project s { x := origin.x, y := y, z := origin.z })
      (project s { x := origin.x + size.w, y := y, z := origin.z }) c s)
    (fun P y => row_points P origin size y)
    (fun y => plots_line c _ _) (origin.y + size.h) size.h.toNat origin.y
    (for_fuel origin.y (origin.y + size.h)) s hn.symm (by unfold for_fuel; omega)
  unfold fill_rect_layer layer_points
  rw [h]
  cases plot_points c (span_points (row_points (project s) origin size) size.h.toNat origin.y) s
    <;> rfl

theorem plots_fill_rect (c : GColor) (origin : Vec3) (size : GSize) :
    Plots c (isometric_fill_rect origin size c) (fun P => fill_rect_points P origin size) := by
  have h := plots_bind c _ _ _ _ (plots_fill_rect_layer c origin size)
    (plots_fill_rect_layer c { origin with z := origin.z - 1 } size)
  intro s
  refine Eq.trans ?_ (h s)
  unfold isometric_fill_rect
  simp only [bind_pure]

theorem plots_fill_box_body (optimize : Bool) (c : GColor) (origin : Vec3) (size : GSize)
    (z : Int) :
    Plots c (fill_box_body optimize origin size c z)
      (fun P => fill_box_body_points optimize P origin size z) := by
  cases optimize with
  | true =>
    exact plots_bind c _ _ _ _ (plots_line c _ _) (plots_line c _ _)
  | false =>
    exact plots_draw_rect c _ size

theorem plots_fill_box (optimize : Bool) (c : GColor) (origin : Vec3) (size : GSize)
    (z_height : Int) :
    Plots c (isometric_fill_box optimize origin size z_height c)
      (fun P => fill_box_points optimize P origin size z_height) := by
  intro s
  have hn : (origin.z + z_height - origin.z).toNat = z_height.toNat := by
    congr 1; ring
  have h := for_loop_plots c (fill_box_body optimize origin size c)
    (fun P z => fill_box_body_points optimize P origin size z)
    (plots_fill_box_body optimize c origin size) (origin.z + z_height) z_height.toNat origin.z
    (for_fuel origin.z (origin.z + z_height)) s hn.symm (by unfold for_fuel; omega)
  unfold isometric_fill_box fill_box_points
  rw [h, plot_points_append]
  cases hp : plot_points c
    (span_points (fill_box_body_points optimize (project s) origin size) z_height.toNat origin.z)
    s with
  | error e => rfl
  | ok s1 =>
    show isometric_fill_rect _ size c s1 = plot_points c _ s1
    rw [plots_fill_rect c _ size s1, plot_points_project c _ s s1 hp]

/-! ### Drawing without a render target -/

theorem plot_points_no_target (c : GColor) (ps : List GPoint) (s : State)
    (h : s.s_fb_data = none) :
    ((∀ p ∈ ps, ¬ on_display p) → plot_points c ps s = .ok s)
      ∧ ((∃ p ∈ ps, on_display p) → plot_points c ps s = .error .nullBuffer) := by
  induction ps with
  | nil => exact ⟨fun _ => rfl, fun ⟨p, hp, _⟩ => absurd hp (List.not_mem_nil p)⟩
  | cons q qs ih =>
    by_cases hq : on_display q
    · have e : set_pixel s q c = .error .nullBuffer := by simp [set_pixel, hq, h]
      refine ⟨fun hall => absurd hq (hall q (List.mem_cons_self q qs)), fun _ => ?_⟩
      simp only [plot_points, e]
    · have e : set_pixel s q c = .ok s := set_pixel_off s q c hq
      refine ⟨fun hall => ?_, fun ⟨p, hp, hon⟩ => ?_⟩
      · simp only [plot_points, e]
        exact ih.1 (fun p hp => hall p (List.mem_cons_of_mem q hp))
      · simp only [plot_points, e]
        rcases List.mem_cons.1 hp with rfl | hp'
        · exact absurd hon hq
        · exact ih.2 ⟨p, hp', hon⟩

theorem plots_no_target (c : GColor) (f : State → Except Fault State)
    (pts : (Vec3 → GPoint) → List GPoint) (hf : Plots c f pts) (s : State)
    (h : s.s_fb_data = none) :
    ((∀ p ∈ pts (project s), ¬ on_display p) → f s = .ok s)
      ∧ ((∃ p ∈ pts (project s), on_display p) → f s = .error .nullBuffer) := by
  rw [hf s]
  exact plot_points_no_target c _ s h

/-- C4 as stated fails: with no render target (in the initial state, and again
after `isometric_finish`) each of the five drawing calls, given a point inside the
visible area, writes through the null pixel pointer instead of doing nothing. -/
theorem draw_without_target_faults :
    isometric_draw_pixel { x := 0, y := 0, z := 0 } { argb := 1 } initial = .error .nullBuffer
    ∧ isometric_draw_pixel { x := 0, y := 0, z := 0 } { argb := 1 }
        (isometric_finish (isometric_begin { addr := [0, 0], bounds_size := { w := 2, h := 1 } }
          initial)) = .error .nullBuffer
    ∧ isometric_draw_rect { x := 0, y := 0, z := 0 } { w := 1, h := 1 } { argb := 1 } initial
        = .error .nullBuffer
    ∧ isometric_fill_rect { x := 0, y := 0, z := 0 } { w := 1, h := 1 } { argb := 1 } initial
        = .error .nullBuffer
    ∧ isometric_fill_box false { x := 0, y := 0, z := 0 } { w := 1, h := 1 } 1 { argb := 1 }
        initial = .error .nullBuffer
    ∧ isometric_draw_box { x := 0, y := 0, z := 0 } { w := 1, h := 1 } 1 { argb := 1 } initial
        = .error .nullBuffer := by
  refine ⟨by decide, by decide, by decide, by decide, by decide, by decide⟩

/-- C4, amended: no render target is active in the initial state and after
`isometric_finish` closes a render pass; in such a state each of the five drawing
calls returns normally, with the state unchanged, when none of the points it plots
lies inside the visible 144x168 area, and writes through the null pixel pointer
when one of them does. -/
theorem draw_without_target (optimize : Bool) (s : State) (h : s.s_fb_data = none)
    (point origin : Vec3) (size : GSize) (z_height : Int) (c : GColor) :
    (initial.s_fb_data = none
      ∧ ∀ (fb : GBitmap) (t : State), (isometric_finish (isometric_begin fb t)).s_fb_data = none)
    ∧ (((∀ p ∈ [project s point], ¬ on_display p) → isometric_draw_pixel point c s = .ok s)
      ∧ ((∃ p ∈ [project s point], on_display p) →
          isometric_draw_pixel point c s = .error .nullBuffer))
    ∧ (((∀ p ∈ rect_points (project s) origin size, ¬ on_display p) →
          isometric_draw_rect origin size c s = .ok s)
      ∧ ((∃ p ∈ rect_points (project s) origin size, on_display p) →
          isometric_draw_rect origin size c s = .error .nullBuffer))
    ∧ (((∀ p ∈ fill_rect_points (project s) origin size, ¬ on_display p) →
          isometric_fill_rect origin size c s = .ok s)
      ∧ ((∃ p ∈ fill_rect_points (project s) origin size, on_display p) →
          isometric_fill_rect origin size c s = .error .nullBuffer))
    ∧ (((∀ p ∈ fill_box_points optimize (project s) origin size z_height, ¬ on_display p) →
          isometric_fill_box optimize origin size z_height c s = .ok s)
      ∧ ((∃ p ∈ fill_box_points optimize (project s) origin size z_height, on_display p) →
          isometric_fill_box optimize origin size z_height c s = .error .nullBuffer))
    ∧ (((∀ p ∈ draw_box_points (project s) origin size z_height, ¬ on_display p) →
          isometric_draw_box origin size z_height c s = .ok s)
      ∧ ((∃ p ∈ draw_box_points (project s) origin size z_height, on_display p) →
          isometric_draw_box origin size z_height c s = .error .nullBuffer)) :=
  ⟨⟨rfl, fun fb t => by simp [isometric_finish, isometric_begin]⟩,
    plots_no_target c _ _ (plots_draw_pixel c point) s h,
    plots_no_target c _ _ (plots_draw_rect c origin size) s h,
    plots_no_target c _ _ (plots_fill_rect c origin size) s h,
    plots_no_target c _ _ (plots_fill_box optimize c origin size z_height) s h,
    plots_no_target c _ _ (plots_draw_box c origin size z_height) s h⟩

/-- Witness of `draw_without_target`: in the initial state, the rectangle at
(400,0,0) of size (2,1), all of whose points are off the display, leaves the state
as it is. -/
theorem draw_without_target_witness :
    isometric_draw_rect { x := 400, y := 0, z := 0 } { w := 2, h := 1 } { argb := 1 } initial
      = .ok initial :=
  (draw_without_target false initial rfl { x := 0, y := 0, z := 0 } { x := 400, y := 0, z := 0 }
    { w := 2, h := 1 } 0 { argb := 1 }).2.2.1.1 (by decide)

/-! ### The frame of the drawing calls -/

theorem framed_refl (c : GColor) (s : State) : Framed c s s :=
  ⟨fun _ _ => rfl, fun _ => Or.inl rfl, rfl, rfl, rfl, rfl, rfl⟩

theorem framed_trans (c : GColor) (s s1 s2 : State) (h1 : Framed c s s1) (h2 : Framed c s1 s2) :
    Framed c s s2 := by
  obtain ⟨a1, a2, a3, a4, a5, a6, a7⟩ := h1
  obtain ⟨b1, b2, b3, b4, b5, b6, b7⟩ := h2
  refine ⟨fun j hj => ?_, fun j => ?_, b3.trans a3, b4.trans a4, b5.trans a5, b6.trans a6,
    b7.trans a7⟩
  · rw [b1 j (by rw [a6]; exact hj), a1 j hj]
  · rcases b2 j with h | h
    · rw [h]; exact a2 j
    · exact Or.inr h

theorem set_pixel_framed (c : GColor) (s s1 : State) (p : GPoint)
    (h : set_pixel s p c = .ok s1) : Framed c s s1 := by
  by_cases hp : on_display p
  · cases hd : s.s_fb_data with
    | none => simp [set_pixel, hp, hd] at h
    | some data =>
      by_cases hr : 0 ≤ pixel_offset s p ∧ pixel_offset s p < data.length
      · rw [set_pixel_on s p c data hd hp hr.1 hr.2] at h
        simp only [Except.ok.injEq] at h
        subst h
        refine ⟨fun j hj => ?_, fun j => ?_, rfl, rfl, rfl, rfl, by simp [hd]⟩
        · have hne : (pixel_offset s p).toNat ≠ j := by
            intro e
            apply hj
            refine ⟨p.x, p.y, hp.1, hp.2.1, hp.2.2.1, hp.2.2.2, ?_⟩
            rw [← e, Int.toNat_of_nonneg hr.1]
            rfl
          simp [cell, hd, List.getElem?_set, hne]
        · by_cases e : (pixel_offset s p).toNat = j
          · right
            have hlt : (pixel_offset s p).toNat < data.length := by omega
            subst e
            simp [cell, List.getElem?_set, hlt]
          · left
            simp [cell, hd, List.getElem?_set, e]
      · simp [set_pixel, hp, hd, hr] at h
  · rw [set_pixel_off s p c hp] at h
    simp only [Except.ok.injEq] at h
    subst h
    exact framed_refl c s

theorem plot_points_framed (c : GColor) (ps : List GPoint) :
    ∀ s s1 : State, plot_points c ps s = .ok s1 → Framed c s s1 := by
  induction ps with
  | nil =>
    intro s s1 h
    simp only [plot_points, Except.ok.injEq] at h
    subst h
    exact framed_refl c s
  | cons p ps ih =>
    intro s s1 h
    unfold plot_points at h
    cases h0 : set_pixel s p c with
    | error e => rw [h0] at h; simp at h
    | ok s0 =>
      rw [h0] at h
      exact framed_trans c s s0 s1 (set_pixel_framed c s s0 p h0) (ih s0 s1 h)

theorem holds_display_framed (c : GColor) (s s1 : State) (h : holds_display s)
    (hf : Framed c s s1) : holds_display s1 := by
  obtain ⟨data, hd, hw, hlen⟩ := h
  obtain ⟨_, _, _, _, _, hsize, hmap⟩ := hf
  rw [hd] at hmap
  cases hd1 : s1.s_fb_data with
  | none => rw [hd1] at hmap; simp at hmap
  | some data1 =>
    rw [hd1] at hmap
    simp only [Option.map_some', Option.some.injEq] at hmap
    exact ⟨data1, hd1, by rw [hsize]; exact hw, by rw [hsize, hmap]; exact hlen⟩

theorem set_pixel_returns (c : GColor) (s : State) (p : GPoint) (h : holds_display s) :
    ∃ s1 : State, set_pixel s p c = .ok s1 := by
  obtain ⟨data, hd, hw, hlen⟩ := h
  by_cases hp : on_display p
  · obtain ⟨hx0, hx1, hy0, hy1⟩ := hp
    have h1 : 0 ≤ p.y * s.s_fb_size.w := mul_nonneg hy0 hw
    have h2 : p.y * s.s_fb_size.w ≤ 167 * s.s_fb_size.w :=
      mul_le_mul_of_nonneg_right (by omega) hw
    exact ⟨_, set_pixel_on s p c data hd ⟨hx0, hx1, hy0, hy1⟩
      (by unfold pixel_offset; omega) (by unfold pixel_offset; omega)⟩
  · exact ⟨s, set_pixel_off s p c hp⟩

theorem plot_points_returns (c : GColor) (ps : List GPoint) :
    ∀ s : State, holds_display s → ∃ s1 : State, plot_points c ps s = .ok s1 := by
  induction ps with
  | nil => intro s _; exact ⟨s, rfl⟩
  | cons p ps ih =>
    intro s h
    obtain ⟨s0, h0⟩ := set_pixel_returns c s p h
    obtain ⟨s1, h1⟩ := ih s0 (holds_display_framed c s s0 h (set_pixel_framed c s s0 p h0))
    exact ⟨s1, by simp only [plot_points, h0, h1]⟩

theorem plots_frame (c : GColor) (f : State → Except Fault State)
    (pts : (Vec3 → GPoint) → List GPoint) (hf : Plots c f pts) (s : State) :
    (holds_display s → ∃ s1 : State, f s = .ok s1)
      ∧ ∀ s1 : State, f s = .ok s1 → Framed c s s1 := by
  rw [hf s]
  exact ⟨plot_points_returns c _ s, plot_points_framed c _ s⟩

/-- C5: on an active target of width `W` each of the five drawing calls, with any
arguments and in any projector state, returns normally when the pixel array holds
the display, and whenever it returns: every offset that is not `y * W + x` for
some `0 ≤ x < 144`, `0 ≤ y < 168` keeps its value, every offset holds its previous
value or the byte of the given colour, the array keeps its length, and the
projector state (and the recorded size) is unchanged. -/
theorem drawing_frame (optimize : Bool) (s : State) (data : List Nat) (W : Int)
    (hd : s.s_fb_data = some data) (hW : s.s_fb_size.w = W)
    (point origin : Vec3) (size : GSize) (z_height : Int) (c : GColor) :
    ∀ r ∈ [isometric_draw_pixel point c s, isometric_draw_rect origin size c s,
        isometric_fill_rect origin size c s, isometric_fill_box optimize origin size z_height c s,
        isometric_draw_box origin size z_height c s],
      ((0 ≤ W ∧ 167 * W + 143 < data.length) → ∃ s1 : State, r = .ok s1)
      ∧ ∀ s1 : State, r = .ok s1 →
          (∀ j : Nat, (¬ ∃ x y : Int, 0 ≤ x ∧ x < 144 ∧ 0 ≤ y ∧ y < 168 ∧ (j : Int) = y * W + x) →
            cell s1 j = cell s j)
          ∧ (∀ j : Nat, cell s1 j = cell s j ∨ cell s1 j = some (color_byte c))
          ∧ (∃ data1 : List Nat, s1.s_fb_data = some data1 ∧ data1.length = data.length)
          ∧ s1.s_enabled = s.s_enabled ∧ s1.s_projection_offset = s.s_projection_offset
          ∧ s1.s_fb_size = s.s_fb_size := by
  have key : ∀ (f : State → Except Fault State) (pts : (Vec3 → GPoint) → List GPoint),
      Plots c f pts →
      ((0 ≤ W ∧ 167 * W + 143 < data.length) → ∃ s1 : State, f s = .ok s1)
      ∧ ∀ s1 : State, f s = .ok s1 →
          (∀ j : Nat, (¬ ∃ x y : Int, 0 ≤ x ∧ x < 144 ∧ 0 ≤ y ∧ y < 168 ∧ (j : Int) = y * W + x) →
            cell s1 j = cell s j)
          ∧ (∀ j : Nat, cell s1 j = cell s j ∨ cell s1 j = some (color_byte c))
          ∧ (∃ data1 : List Nat, s1.s_fb_data = some data1 ∧ data1.length = data.length)
          ∧ s1.s_enabled = s.s_enabled ∧ s1.s_projection_offset = s.s_projection_offset
          ∧ s1.s_fb_size = s.s_fb_size := by
    intro f pts hf
    obtain ⟨hret, hfr⟩ := plots_frame c f pts hf s
    refine ⟨fun hsz => hret ⟨data, hd, by rw [hW]; exact hsz.1, by rw [hW]; exact hsz.2⟩,
      fun s1 h1 => ?_⟩
    obtain ⟨a1, a2, a3, a4, _, a6, a7⟩ := hfr s1 h1
    rw [hW] at a1
    refine ⟨a1, a2, ?_, a3, a4, a6⟩
    rw [hd] at a7
    cases hd1 : s1.s_fb_data with
    | none => rw [hd1] at a7; simp at a7
    | some data1 =>
      rw [hd1] at a7
      simp only [Option.map_some', Option.some.injEq] at a7
      exact ⟨data1, rfl, a7⟩
  intro r hr
  simp only [List.mem_cons, List.mem_singleton, List.not_mem_nil, or_false] at hr
  rcases hr with rfl | rfl | rfl | rfl | rfl
  · exact key _ _ (plots_draw_pixel c point)
  · exact key _ _ (plots_draw_rect c origin size)
  · exact key _ _ (plots_fill_rect c origin size)
  · exact key _ _ (plots_fill_box optimize c origin size z_height)
  · exact key _ _ (plots_draw_box c origin size z_height)

/-- Witness of `drawing_frame`: on the 144x168 target, drawing the outline of the
box at (20,4,-3) of size (9,5) and height 6 returns normally. -/
theorem drawing_frame_witness :
    ∃ s1 : State, isometric_draw_box { x := 20, y := 4, z := -3 } { w := 9, h := 5 } 6
      { argb := 200 } display_target = .ok s1 :=
  (drawing_frame false display_target (List.replicate 24192 0) 144 rfl rfl
    { x := 0, y := 0, z := 0 } { x := 20, y := 4, z := -3 } { w := 9, h := 5 } 6 { argb := 200 }
    _ (by simp)).1 ⟨by decide, by rw [List.length_replicate]; decide⟩

/-! ### Repeating a drawing call -/

theorem list_set_same (l : List Nat) (i a : Nat) (h : l[i]? = some a) : l.set i a = l := by
  apply List.ext_getElem?
  intro j
  rw [List.getElem?_set]
  by_cases e : i = j
  · subst e
    have hlt : i < l.length := by
      by_contra hcon
      rw [List.getElem?_eq_none (by omega)] at h
      simp at h
    simp [hlt, h]
  · simp [e]

theorem set_pixel_lit (c : GColor) (s s1 : State) (p : GPoint) (h : set_pixel s p c = .ok s1) :
    Lit c s1 p := by
  by_cases hp : on_display p
  · cases hd : s.s_fb_data with
    | none => simp [set_pixel, hp, hd] at h
    | some data =>
      by_cases hr : 0 ≤ pixel_offset s p ∧ pixel_offset s p < data.length
      · rw [set_pixel_on s p c data hd hp hr.1 hr.2] at h
        simp only [Except.ok.injEq] at h
        subst h
        right
        have hlt : (pixel_offset s p).toNat < data.length := by omega
        refine ⟨hr.1, ?_⟩
        show (data.set (pixel_offset s p).toNat (color_byte c))[(pixel_offset s p).toNat]?
          = some (color_byte c)
        simp [List.getElem?_set, hlt]
      · simp [set_pixel, hp, hd, hr] at h
  · exact Or.inl hp

theorem lit_of_framed (c : GColor) (s s1 : State) (q : GPoint) (hq : Lit c s q)
    (hf : Framed c s s1) : Lit c s1 q := by
  rcases hq with hq | ⟨h0, hc⟩
  · exact Or.inl hq
  · right
    have e : pixel_offset s1 q = pixel_offset s q := by
      unfold pixel_offset; rw [hf.2.2.2.2.2.1]
    rw [e]
    refine ⟨h0, ?_⟩
    rcases hf.2.1 (pixel_offset s q).toNat with h | h
    · rw [h]; exact hc
    · exact h

theorem set_pixel_of_lit (c : GColor) (s : State) (p : GPoint) (h : Lit c s p) :
    set_pixel s p c = .ok s := by
  rcases h with h | ⟨h0, hc⟩
  · exact set_pixel_off s p c h
  · by_cases hp : on_display p
    · cases hd : s.s_fb_data with
      | none => simp [cell, hd] at hc
      | some data =>
        have hg : data[(pixel_offset s p).toNat]? = some (color_byte c) := by
          simpa [cell, hd] using hc
        have hlt : (pixel_offset s p).toNat < data.length := by
          by_contra hcon
          rw [List.getElem?_eq_none (by omega)] at hg
          simp at hg
        rw [set_pixel_on s p c data hd hp h0 (by omega), list_set_same data _ _ hg, ← hd]
    · exact set_pixel_off s p c hp

theorem plot_points_lit (c : GColor) (ps : List GPoint) :
    ∀ s s1 : State, plot_points c ps s = .ok s1 → ∀ p ∈ ps, Lit c s1 p := by
  induction ps with
  | nil => intro s s1 _ p hp; exact absurd hp (List.not_mem_nil p)
  | cons q qs ih =>
    intro s s1 h p hp
    unfold plot_points at h
    cases h0 : set_pixel s q c with
    | error e => rw [h0] at h; simp at h
    | ok s0 =>
      rw [h0] at h
      rcases List.mem_cons.1 hp with rfl | hp'
      · exact lit_of_framed c s0 s1 p (set_pixel_lit c s s0 p h0) (plot_points_framed c qs s0 s1 h)
      · exact ih s0 s1 h p hp'

theorem plot_points_of_lit (c : GColor) (ps : List GPoint) (s : State)
    (h : ∀ p ∈ ps, Lit c s p) : plot_points c ps s = .ok s := by
  induction ps with
  | nil => rfl
  | cons q qs ih =>
    simp only [plot_points, set_pixel_of_lit c s q (h q (List.mem_cons_self q qs))]
    exact ih (fun p hp => h p (List.mem_cons_of_mem q hp))

theorem plots_twice (c : GColor) (f : State → Except Fault State)
    (pts : (Vec3 → GPoint) → List GPoint) (hf : Plots c f pts) (s : State) :
    (f s >>= f) = f s := by
  cases h : f s with
  | error e => rfl
  | ok s1 =>
    show f s1 = .ok s1
    rw [hf s] at h
    rw [hf s1, plot_points_project c _ s s1 h]
    exact plot_points_of_lit c _ s1 (plot_points_lit c _ s s1 h)

/-- C9: for every origin, size, colour and state (projector state and buffer
contents), `isometric_draw_rect` called twice in a row ends in the same state as
called once (and faults the second way only if it faults the first time). -/
theorem draw_rect_twice (origin : Vec3) (size : GSize) (c : GColor) (s : State) :
    (isometric_draw_rect origin size c s >>= isometric_draw_rect origin size c)
      = isometric_draw_rect origin size c s :=
  plots_twice c _ _ (plots_draw_rect c origin size) s

/-! ### Lines up to translation and reflection -/

theorem step_canon (dx sx dy sy x0 y0 e : Int) (k : Nat) :
    (bresenham_step dx sx dy sy)^[k] { start := { x := x0, y := y0 }, err := e }
      = { start :=
            { x := x0 + sx * ((bresenham_step dx 1 dy 1)^[k]
                  { start := { x := 0, y := 0 }, err := e }).start.x
              y := y0 + sy * ((bresenham_step dx 1 dy 1)^[k]
                  { start := { x := 0, y := 0 }, err := e }).start.y }
          err := ((bresenham_step dx 1 dy 1)^[k]
                  { start := { x := 0, y := 0 }, err := e }).err } := by
  induction k with
  | zero => simp
  | succ k ih =>
    rw [Function.iterate_succ_apply', Function.iterate_succ_apply', ih]
    generalize (bresenham_step dx 1 dy 1)^[k] { start := { x := 0, y := 0 }, err := e } = r
    by_cases h1 : r.err > -dx <;> by_cases h2 : r.err < dy <;>
      simp only [bresenham_step, h1, h2, if_true, if_false] <;>
      refine congrArg₂ LineVars.mk (congrArg₂ GPoint.mk ?_ ?_) rfl <;> ring

theorem canon_walk_step (dx dy : Int) (k : Nat) :
    (canon_walk dx dy (k + 1)).start.y = (canon_walk dx dy k).start.y
      ∨ (canon_walk dx dy (k + 1)).start.y = (canon_walk dx dy k).start.y + 1 := by
  unfold canon_walk
  rw [Function.iterate_succ_apply']
  generalize (bresenham_step dx 1 dy 1)^[k] _ = r
  simp only [bresenham_step]
  split <;> split <;> simp

/-- A line that goes right by `w ≥ 0` and down by `d` with `0 ≤ d ≤ w` visits one
point per column: its `k`-th point is `k` columns right of `start` and
`canon_walk w d k` rows below. -/
theorem shallow_line (start finish : GPoint) (w d : Int)
    (hx : finish.x = start.x + w) (hy : finish.y = start.y + d)
    (hd0 : 0 ≤ d) (hdw : d ≤ w) (p : GPoint) :
    p ∈ line_points start finish ↔
      ∃ k : Nat, (k : Int) ≤ w
        ∧ p = { x := start.x + k, y := start.y + (canon_walk w d k).start.y } := by
  have hdx : line_dx start finish = w := by
    unfold line_dx c_abs; rw [hx]; split <;> omega
  have hdy : line_dy start finish = d := by
    unfold line_dy c_abs; rw [hy]; split <;> omega
  have hmax : max (line_dx start finish) (line_dy start finish) = w := by
    rw [hdx, hdy]; exact max_eq_left hdw
  have herr : line_err start finish = Int.tdiv (if w > d then w else -d) 2 := by
    unfold line_err; rw [hdx, hdy]
  have key : ∀ k : Nat, (k : Int) ≤ w →
      ((bresenham_step (line_dx start finish) (line_sx start finish) (line_dy start finish)
          (line_sy start finish))^[k] (line_init start finish)).start
        = { x := start.x + k, y := start.y + (canon_walk w d k).start.y } := by
    intro k hk
    obtain ⟨a, b, ha0, ha, hb0, hb, _, hp, _, hak, _⟩ :=
      line_walk_full start finish k (by rw [hmax]; exact hk)
    have hak' : a = k := hak (by rw [hdx, hdy]; exact hdw)
    have hc := step_canon (line_dx start finish) (line_sx start finish) (line_dy start finish)
      (line_sy start finish) start.x start.y (line_err start finish) k
    have hinit : line_init start finish
        = { start := { x := start.x, y := start.y }, err := line_err start finish } := rfl
    rw [hinit, hc] at hp
    simp only [GPoint.mk.injEq] at hp
    obtain ⟨hpx, hpy⟩ := hp
    rw [hinit, hc]
    rw [hdx, hdy, herr] at hpy hpx ⊢
    have hcw : (bresenham_step w 1 d 1)^[k]
        { start := { x := 0, y := 0 }, err := Int.tdiv (if w > d then w else -d) 2 }
        = canon_walk w d k := rfl
    rw [hcw] at hpx hpy ⊢
    have hsy : line_sy start finish * (canon_walk w d k).start.y = (canon_walk w d k).start.y := by
      rcases line_sy_cases start finish with h | h
      · rw [h]; ring
      · rw [h] at hpy ⊢
        have hdpos : ¬ 0 < d := by
          intro hpos
          have : line_sy start finish = 1 := by unfold line_sy; rw [if_pos (by omega)]
          omega
        have hb' : b = 0 := by rw [hdy] at hb; omega
        rw [hb'] at hpy
        omega
    have hsx : line_sx start finish * (canon_walk w d k).start.x = k := by
      rcases line_sx_cases start finish with h | h
      · rw [h] at hpx ⊢; omega
      · rw [h] at hpx ⊢
        have hwpos : ¬ 0 < w := by
          intro hpos
          have : line_sx start finish = 1 := by unfold line_sx; rw [if_pos (by omega)]
          omega
        omega
    simp only [GPoint.mk.injEq]
    exact ⟨by rw [hsx], by rw [hsy]⟩
  rw [mem_line_points, hmax]
  constructor
  · rintro ⟨k, hk, rfl⟩
    exact ⟨k, hk, key k hk⟩
  · rintro ⟨k, hk, rfl⟩
    exact ⟨k, hk, key k hk⟩

/-! ### The filled rectangle has no seam -/

theorem tdiv_two_cases (n : Int) :
    (0 ≤ n ∧ Int.tdiv n 2 = n / 2) ∨ (n < 0 ∧ Int.tdiv n 2 = -((-n) / 2)) := by
  rcases le_or_lt 0 n with h | h
  · exact Or.inl ⟨h, tdiv_two_nonneg n h⟩
  · right
    refine ⟨h, ?_⟩
    have := tdiv_two_neg (-n) (by omega)
    rwa [neg_neg] at this

theorem tdiv_two_succ (n : Int) :
    Int.tdiv (n + 1) 2 = Int.tdiv n 2 ∨ Int.tdiv (n + 1) 2 = Int.tdiv n 2 + 1 := by
  rcases tdiv_two_cases n with ⟨h1, e1⟩ | ⟨h1, e1⟩ <;>
    rcases tdiv_two_cases (n + 1) with ⟨h2, e2⟩ | ⟨h2, e2⟩ <;> rw [e1, e2] <;> omega

theorem tdiv_two_span (n w : Int) (hw : 0 ≤ w) :
    0 ≤ Int.tdiv (n + w) 2 - Int.tdiv n 2 ∧ Int.tdiv (n + w) 2 - Int.tdiv n 2 ≤ w := by
  rcases tdiv_two_cases n with ⟨h1, e1⟩ | ⟨h1, e1⟩ <;>
    rcases tdiv_two_cases (n + w) with ⟨h2, e2⟩ | ⟨h2, e2⟩ <;> rw [e1, e2] <;> omega

theorem mem_span_points (pts : Int → List GPoint) (p : GPoint) (n : Nat) :
    ∀ i : Int, p ∈ span_points pts n i ↔ ∃ j : Nat, j < n ∧ p ∈ pts (i + j) := by
  induction n with
  | zero => intro i; simp [span_points]
  | succ n ih =>
    intro i
    rw [span_points, List.mem_append, ih (i + 1)]
    constructor
    · rintro (h | ⟨j, hj, h⟩)
      · exact ⟨0, Nat.succ_pos n, by simpa using h⟩
      · refine ⟨j + 1, by omega, ?_⟩
        have e : i + ((j + 1 : Nat) : Int) = i + 1 + j := by push_cast; ring
        rw [e]; exact h
    · rintro ⟨j, hj, h⟩
      cases j with
      | zero => left; simpa using h
      | succ j =>
        right
        refine ⟨j, by omega, ?_⟩
        have e : i + ((j + 1 : Nat) : Int) = i + 1 + j := by push_cast; ring
        rw [e] at h; exact h

theorem mem_layer_points (s : State) (he : s.s_enabled = true) (origin : Vec3) (size : GSize)
    (hw : 0 ≤ size.w) (p : GPoint) :
    p ∈ layer_points (project_wide s) origin size ↔
      ∃ j k : Nat, (j : Int) < size.h ∧ (k : Int) ≤ size.w
        ∧ p.x = s.s_projection_offset.x + (origin.x - origin.y) - j + k
        ∧ p.y = s.s_projection_offset.y + (Int.tdiv origin.x 2 - origin.z)
            + Int.tdiv (origin.y + j) 2
            + (canon_walk size.w (Int.tdiv (origin.x + size.w) 2 - Int.tdiv origin.x 2)
                k).start.y := by
  obtain ⟨hd0, hdw⟩ := tdiv_two_span origin.x size.w hw
  have hline : ∀ j : Nat, p ∈ row_points (project_wide s) origin size (origin.y + j) ↔
      ∃ k : Nat, (k : Int) ≤ size.w
        ∧ p = { x := (project_wide s { x := origin.x, y := origin.y + j, z := origin.z }).x + k
                y := (project_wide s { x := origin.x, y := origin.y + j, z := origin.z }).y
                  + (canon_walk size.w (Int.tdiv (origin.x + size.w) 2 - Int.tdiv origin.x 2)
                      k).start.y } := by
    intro j
    unfold row_points
    exact shallow_line _ _ size.w _ (by simp [project_wide, he]; ring) (by simp [project_wide, he]; ring)
      hd0 hdw p
  unfold layer_points
  rw [mem_span_points]
  constructor
  · rintro ⟨j, hj, hp⟩
    obtain ⟨k, hk, rfl⟩ := (hline j).1 hp
    refine ⟨j, k, by omega, hk, ?_, ?_⟩ <;> simp [project_wide, he] <;> ring
  · rintro ⟨j, k, hj, hk, hpx, hpy⟩
    refine ⟨j, by omega, (hline j).2 ⟨k, hk, ?_⟩⟩
    cases p with
    | mk px py =>
      simp only at hpx hpy
      subst hpx hpy
      simp [project_wide, he]
      constructor <;> ring

theorem steps_mono (f : Nat → Int) (hf : ∀ t, f t ≤ f (t + 1)) (a n : Nat) :
    f a ≤ f (a + n) := by
  induction n with
  | zero => exact le_refl _
  | succ n ih => exact le_trans ih (hf (a + n))

/-- A sequence that never falls and never rises by more than 2 per step passes
within one of every value between two of its entries. -/
theorem steps_cover (f : Nat → Int) (hf : ∀ t, f t ≤ f (t + 1) ∧ f (t + 1) ≤ f t + 2)
    (a n : Nat) (y : Int) (hlo : f a ≤ y) (hhi : y ≤ f (a + n) + 1) :
    ∃ t : Nat, a ≤ t ∧ t ≤ a + n ∧ (y = f t ∨ y = f t + 1) := by
  induction n with
  | zero => exact ⟨a, le_refl _, le_refl _, by simp at hhi; omega⟩
  | succ n ih =>
    by_cases h : y ≤ f (a + n) + 1
    · obtain ⟨t, h1, h2, h3⟩ := ih h
      exact ⟨t, h1, by omega, h3⟩
    · have h2 := (hf (a + n)).2
      have e : a + (n + 1) = a + n + 1 := rfl
      rw [e] at hhi
      exact ⟨a + n + 1, by omega, by omega, by omega⟩

theorem no_seam_core (tj g : Nat → Int)
    (htj : ∀ j, tj (j + 1) = tj j ∨ tj (j + 1) = tj j + 1)
    (hg : ∀ k, g (k + 1) = g k ∨ g (k + 1) = g k + 1)
    (j1 k1 j3 k3 : Nat) (l1 l3 : Int) (hl1 : l1 = 0 ∨ l1 = 1) (hl3 : l3 = 0 ∨ l3 = 1)
    (hcol : (k1 : Int) - j1 = (k3 : Int) - j3) (y : Int)
    (hlo : tj j1 + g k1 + l1 ≤ y) (hhi : y ≤ tj j3 + g k3 + l3) :
    ∃ (j k : Nat) (l : Int), (l = 0 ∨ l = 1) ∧ j ≤ max j1 j3 ∧ k ≤ max k1 k3
      ∧ (k : Int) - j = (k1 : Int) - j1 ∧ y = tj j + g k + l := by
  rcases le_or_lt j1 j3 with h | h
  · obtain ⟨n, rfl⟩ : ∃ n, j3 = j1 + n := ⟨j3 - j1, by omega⟩
    have hk : k3 = k1 + n := by omega
    subst hk
    have hf : ∀ t, tj (j1 + t) + g (k1 + t) ≤ tj (j1 + (t + 1)) + g (k1 + (t + 1))
        ∧ tj (j1 + (t + 1)) + g (k1 + (t + 1)) ≤ tj (j1 + t) + g (k1 + t) + 2 := by
      intro t
      have a1 := htj (j1 + t)
      have a2 := hg (k1 + t)
      have e1 : j1 + (t + 1) = j1 + t + 1 := rfl
      have e2 : k1 + (t + 1) = k1 + t + 1 := rfl
      rw [e1, e2]
      omega
    obtain ⟨t, _, ht, hy⟩ := steps_cover (fun t => tj (j1 + t) + g (k1 + t)) hf 0 n y
      (by simp only [Nat.add_zero]; omega) (by simp only [Nat.zero_add]; omega)
    refine ⟨j1 + t, k1 + t, y - (tj (j1 + t) + g (k1 + t)), by omega, ?_, ?_, ?_, by omega⟩
    · rw [max_eq_right (by omega)]; omega
    · rw [max_eq_right (by omega)]; omega
    · push_cast; omega
  · obtain ⟨n, rfl⟩ : ∃ n, j1 = j3 + n := ⟨j1 - j3, by omega⟩
    have hk : k1 = k3 + n := by omega
    subst hk
    have hf : ∀ t, tj (j3 + t) + g (k3 + t) ≤ tj (j3 + (t + 1)) + g (k3 + (t + 1)) := by
      intro t
      have a1 := htj (j3 + t)
      have a2 := hg (k3 + t)
      have e1 : j3 + (t + 1) = j3 + t + 1 := rfl
      have e2 : k3 + (t + 1) = k3 + t + 1 := rfl
      rw [e1, e2]
      omega
    have hm := steps_mono (fun t => tj (j3 + t) + g (k3 + t)) hf 0 n
    simp only [Nat.add_zero, Nat.zero_add] at hm
    refine ⟨j3 + n, k3 + n, y - (tj (j3 + n) + g (k3 + n)), by omega, ?_, ?_, rfl, by omega⟩
    · rw [max_eq_left (by omega)]
    · rw [max_eq_left (by omega)]

theorem mem_fill_rect_points (s : State) (he : s.s_enabled = true) (origin : Vec3) (size : GSize)
    (hw : 0 ≤ size.w) (p : GPoint) :
    p ∈ fill_rect_points (project_wide s) origin size ↔
      ∃ (j k : Nat) (l : Int), (l = 0 ∨ l = 1) ∧ (j : Int) < size.h ∧ (k : Int) ≤ size.w
        ∧ p.x = s.s_projection_offset.x + (origin.x - origin.y) - j + k
        ∧ p.y - (s.s_projection_offset.y + (Int.tdiv origin.x 2 - origin.z))
            = Int.tdiv (origin.y + j) 2
              + (canon_walk size.w (Int.tdiv (origin.x + size.w) 2 - Int.tdiv origin.x 2)
                  k).start.y + l := by
  unfold fill_rect_points
  rw [List.mem_append, mem_layer_points s he origin size hw,
    mem_layer_points s he { origin with z := origin.z - 1 } size hw]
  constructor
  · rintro (⟨j, k, hj, hk, hx, hy⟩ | ⟨j, k, hj, hk, hx, hy⟩)
    · exact ⟨j, k, 0, Or.inl rfl, hj, hk, hx, by rw [hy]; ring⟩
    · exact ⟨j, k, 1, Or.inr rfl, hj, hk, hx, by rw [hy]; ring⟩
  · rintro ⟨j, k, l, hl | hl, hj, hk, hx, hy⟩
    · left
      exact ⟨j, k, hj, hk, hx, by rw [hl] at hy; linarith⟩
    · right
      refine ⟨j, k, hj, hk, hx, ?_⟩
      rw [hl] at hy
      show p.y = s.s_projection_offset.y + (Int.tdiv origin.x 2 - (origin.z - 1))
        + Int.tdiv (origin.y + j) 2
        + (canon_walk size.w (Int.tdiv (origin.x + size.w) 2 - Int.tdiv origin.x 2) k).start.y
      linarith

theorem no_seam_wide (s : State) (he : s.s_enabled = true) (origin : Vec3) (size : GSize)
    (hw : 0 ≤ size.w) (x y1 y2 y3 : Int) (h12 : y1 ≤ y2) (h23 : y2 ≤ y3)
    (h1 : ({ x := x, y := y1 } : GPoint) ∈ fill_rect_points (project_wide s) origin size)
    (h3 : ({ x := x, y := y3 } : GPoint) ∈ fill_rect_points (project_wide s) origin size) :
    ({ x := x, y := y2 } : GPoint) ∈ fill_rect_points (project_wide s) origin size := by
  rw [mem_fill_rect_points s he origin size hw] at h1 h3 ⊢
  obtain ⟨j1, k1, l1, hl1, hj1, hk1, hx1, hy1⟩ := h1
  obtain ⟨j3, k3, l3, hl3, hj3, hk3, hx3, hy3⟩ := h3
  simp only at hx1 hy1 hx3 hy3
  obtain ⟨j, k, l, hl, hj, hk, hcol, hy⟩ :=
    no_seam_core (fun j => Int.tdiv (origin.y + j) 2)
      (fun k => (canon_walk size.w (Int.tdiv (origin.x + size.w) 2 - Int.tdiv origin.x 2)
        k).start.y)
      (fun j => by
        have := tdiv_two_succ (origin.y + j)
        have e : origin.y + ((j + 1 : Nat) : Int) = origin.y + j + 1 := by push_cast; ring
        simp only [e]
        exact this)
      (fun k => canon_walk_step _ _ k)
      j1 k1 j3 k3 l1 l3 hl1 hl3 (by omega)
      (y2 - (s.s_projection_offset.y + (Int.tdiv origin.x 2 - origin.z)))
      (by simp only; omega) (by simp only; omega)
  refine ⟨j, k, l, hl, ?_, ?_, ?_, hy⟩
  · have : (j : Int) ≤ max (j1 : Int) (j3 : Int) := by exact_mod_cast hj
    rcases le_total (j1 : Int) (j3 : Int) with h | h
    · rw [max_eq_right h] at this; omega
    · rw [max_eq_left h] at this; omega
  · have : (k : Int) ≤ max (k1 : Int) (k3 : Int) := by exact_mod_cast hk
    rcases le_total (k1 : Int) (k3 : Int) with h | h
    · rw [max_eq_right h] at this; omega
    · rw [max_eq_left h] at this; omega
  · show x = s.s_projection_offset.x + (origin.x - origin.y) - j + k
    omega

theorem span_points_congr (pts qts : Int → List GPoint) (n : Nat) :
    ∀ i : Int, (∀ j : Nat, j < n → pts (i + j) = qts (i + j)) →
      span_points pts n i = span_points qts n i := by
  induction n with
  | zero => intro i _; rfl
  | succ n ih =>
    intro i h
    have h0 : pts i = qts i := by simpa using h 0 (Nat.succ_pos n)
    rw [span_points, span_points, h0, ih (i + 1) (fun j hj => by
      have := h (j + 1) (by omega)
      have e : i + ((j + 1 : Nat) : Int) = i + 1 + j := by push_cast; ring
      rw [e] at this
      exact this)]

theorem layer_points_congr (P Q : Vec3 → GPoint) (origin : Vec3) (size : GSize)
    (h : ∀ y : Int, origin.y ≤ y → y < origin.y + size.h →
      P { x := origin.x, y := y, z := origin.z } = Q { x := origin.x, y := y, z := origin.z }
      ∧ P { x := origin.x + size.w, y := y, z := origin.z }
          = Q { x := origin.x + size.w, y := y, z := origin.z }) :
    layer_points P origin size = layer_points Q origin size := by
  unfold layer_points
  apply span_points_congr
  intro j hj
  obtain ⟨e1, e2⟩ := h (origin.y + j) (by omega) (by omega)
  unfold row_points
  rw [e1, e2]

/-- C10 as stated fails: the projected end points are stored in `int16_t` fields.
With the projector enabled at offset (0,32767), origin (0,0,0) and size (1,2), the
layer at z = 0 is plotted in row 32767 and the layer at z = -1 in row -32768 (the
value 32768 narrowed), so column 0 holds the rows -32768 and 32767 and not row 0
between them. -/
theorem fill_rect_seam_narrowed :
    (isometric_set_projection_offset { x := 0, y := 32767 } initial).s_enabled = true
    ∧ ({ x := 0, y := -32768 } : GPoint)
        ∈ fill_rect_points (project (isometric_set_projection_offset { x := 0, y := 32767 }
            initial)) { x := 0, y := 0, z := 0 } { w := 1, h := 2 }
    ∧ ({ x := 0, y := 32767 } : GPoint)
        ∈ fill_rect_points (project (isometric_set_projection_offset { x := 0, y := 32767 }
            initial)) { x := 0, y := 0, z := 0 } { w := 1, h := 2 }
    ∧ ({ x := 0, y := 0 } : GPoint)
        ∉ fill_rect_points (project (isometric_set_projection_offset { x := 0, y := 32767 }
            initial)) { x := 0, y := 0, z := 0 } { w := 1, h := 2 } := by
  refine ⟨rfl, by decide, by decide, by decide⟩

/-- C10, amended: with the projector enabled and `size.w ≥ 0`, and provided the end
points of the plotted lines project without narrowing -- for every row `y` with
`origin.y ≤ y < origin.y + size.h`, every `x` of `origin.x`, `origin.x + size.w`
and every `z` of `origin.z`, `origin.z - 1` the values `offset.x + (x - y)` and
`offset.y + (x / 2 + y / 2) - z` lie in -32768 .. 32767 -- the points
`isometric_fill_rect origin size` plots (before the clipping of `set_pixel`) leave
no gap in any screen column: if (x, y1) and (x, y3) are plotted and `y1 ≤ y2 ≤ y3`,
then (x, y2) is plotted too.  This holds for every `size.h` (for `size.h ≤ 0`
nothing is plotted). -/
theorem fill_rect_no_seam (s : State) (he : s.s_enabled = true) (origin : Vec3) (size : GSize)
    (hw : 0 ≤ size.w)
    (hfit : ∀ y : Int, origin.y ≤ y → y < origin.y + size.h →
      ∀ x ∈ [origin.x, origin.x + size.w], ∀ z ∈ [origin.z, origin.z - 1],
        -32768 ≤ s.s_projection_offset.x + (x - y)
        ∧ s.s_projection_offset.x + (x - y) ≤ 32767
        ∧ -32768 ≤ s.s_projection_offset.y + (Int.tdiv x 2 + Int.tdiv y 2) - z
        ∧ s.s_projection_offset.y + (Int.tdiv x 2 + Int.tdiv y 2) - z ≤ 32767)
    (x y1 y2 y3 : Int) (h12 : y1 ≤ y2) (h23 : y2 ≤ y3)
    (h1 : ({ x := x, y := y1 } : GPoint) ∈ fill_rect_points (project s) origin size)
    (h3 : ({ x := x, y := y3 } : GPoint) ∈ fill_rect_points (project s) origin size) :
    ({ x := x, y := y2 } : GPoint) ∈ fill_rect_points (project s) origin size
      ∧ ∀ c : GColor, isometric_fill_rect origin size c s
          = plot_points c (fill_rect_points (project s) origin size) s := by
  refine ⟨?_, fun c => plots_fill_rect c origin size s⟩
  have hproj : ∀ y : Int, origin.y ≤ y → y < origin.y + size.h →
      ∀ x ∈ [origin.x, origin.x + size.w], ∀ z ∈ [origin.z, origin.z - 1],
        project s { x := x, y := y, z := z } = project_wide s { x := x, y := y, z := z } := by
    intro y hy0 hy1 x hx z hz
    obtain ⟨a1, a2, a3, a4⟩ := hfit y hy0 hy1 x hx z hz
    apply project_eq_wide <;> simp only [project_wide, he, if_true] <;> assumption
  have hpts : fill_rect_points (project s) origin size
      = fill_rect_points (project_wide s) origin size := by
    unfold fill_rect_points
    rw [layer_points_congr (project s) (project_wide s) origin size (fun y hy0 hy1 =>
        ⟨hproj y hy0 hy1 _ (by simp) _ (by simp), hproj y hy0 hy1 _ (by simp) _ (by simp)⟩),
      layer_points_congr (project s) (project_wide s) { origin with z := origin.z - 1 } size
        (fun y hy0 hy1 =>
        ⟨hproj y hy0 hy1 _ (by simp) _ (by simp), hproj y hy0 hy1 _ (by simp) _ (by simp)⟩)]
  rw [hpts] at h1 h3 ⊢
  exact no_seam_wide s he origin size hw x y1 y2 y3 h12 h23 h1 h3

/-- Witness of `fill_rect_no_seam`: origin (0,0,5), size (2,2) at offset (0,0);
in column 1 the rows -5 and -3 are plotted, and so is row -4. -/
theorem fill_rect_no_seam_witness :
    ({ x := 1, y := -4 } : GPoint)
      ∈ fill_rect_points (project initial) { x := 0, y := 0, z := 5 } { w := 2, h := 2 } :=
  (fill_rect_no_seam initial rfl { x := 0, y := 0, z := 5 } { w := 2, h := 2 } (by decide)
    (fun y hy0 hy1 => by
      have hy : y = 0 ∨ y = 1 := by
        simp only at hy0 hy1
        omega
      rcases hy with rfl | rfl <;> decide)
    1 (-5) (-4) (-3) (by decide) (by decide) (by decide) (by decide)).1

/-! ### The loops of the filled shapes -/

theorem for_loop_run (body : Int → State → Except Fault State) (bound : Int) (n : Nat) :
    ∀ (first : Int) (fuel : Nat) (s : State), n = (bound - first).toNat → n < fuel →
      for_loop body bound fuel first s
        = (run_span body n first s).map (fun s1 => (first + n, s1)) := by
  induction n with
  | zero =>
    intro first fuel s hn hfuel
    obtain ⟨f, rfl⟩ : ∃ f, fuel = f + 1 := ⟨fuel - 1, by omega⟩
    have hnot : ¬ first < bound := by omega
    simp [for_loop, hnot, run_span, Except.map]
  | succ n ih =>
    intro first fuel s hn hfuel
    obtain ⟨f, rfl⟩ : ∃ f, fuel = f + 1 := ⟨fuel - 1, by omega⟩
    have hlt : first < bound := by omega
    simp only [for_loop, hlt, if_true, run_span]
    cases h : body first s with
    | error e => rfl
    | ok s1 =>
      have hrec := ih (first + 1) f s1 (by omega) (by omega)
      show for_loop body bound f (first + 1) s1
        = (run_span body n (first + 1) s1).map (fun s2 => (first + ((n + 1 : Nat) : Int), s2))
      rw [hrec]
      have e : first + 1 + (n : Int) = first + ((n + 1 : Nat) : Int) := by push_cast; ring
      rw [e]

theorem fill_rect_layer_run (origin : Vec3) (size : GSize) (c : GColor) (s : State) :
    fill_rect_layer origin size c s
      = run_span (fun y t => bresenham_line (project t { x := origin.x, y := y, z := origin.z })
          (project t { x := origin.x + size.w, y := y, z := origin.z }) c t)
          size.h.toNat origin.y s := by
  have hn : (origin.y + size.h - origin.y).toNat = size.h.toNat := by
    congr 1; ring
  have h := for_loop_run
    (fun y t => bresenham_line (project t { x := origin.x, y := y, z := origin.z })
      (project t { x := origin.x + size.w, y := y, z := origin.z }) c t)
    (origin.y + size.h) size.h.toNat origin.y
    (for_fuel origin.y (origin.y + size.h)) s hn.symm (by unfold for_fuel; omega)
  unfold fill_rect_layer
  rw [h]
  cases run_span (fun y t => bresenham_line (project t { x := origin.x, y := y, z := origin.z })
          (project t { x := origin.x + size.w, y := y, z := origin.z }) c t)
          size.h.toNat origin.y s <;> rfl

theorem run_span_two (body : Int → State → Except Fault State) (i : Int) (s : State) :
    run_span body 2 i s = (body i s >>= body (i + 1)) := by
  simp only [run_span]
  cases body i s with
  | error e => rfl
  | ok s1 =>
    show (match body (i + 1) s1 with
      | .error e => .error e
      | .ok s2 => .ok s2) = body (i + 1) s1
    cases body (i + 1) s1 <;> rfl

/-- C11: `isometric_fill_rect` issues exactly the lines
`project (origin.x, y, L) -> project (origin.x + size.w, y, L)`, first for the
layer `L = origin.z` and then for `L = origin.z - 1`, in each layer once for every
`y` of `origin.y, origin.y + 1, ...`, `size.h` values when `size.h ≥ 0` (so
`2 * size.h` lines, with `y < origin.y + size.h`) and none when `size.h ≤ 0`, where
the state is returned unchanged.  For origin (0,0,5) and size (2,2) these are the
rows 0 and 1 at z = 5 followed by the rows 0 and 1 at z = 4. -/
theorem fill_rect_lines (origin : Vec3) (size : GSize) (c : GColor) (s : State) :
    isometric_fill_rect origin size c s
        = (run_span (fun y t => bresenham_line (project t { x := origin.x, y := y, z := origin.z })
              (project t { x := origin.x + size.w, y := y, z := origin.z }) c t)
            size.h.toNat origin.y s
          >>= run_span (fun y t =>
              bresenham_line (project t { x := origin.x, y := y, z := origin.z - 1 })
                (project t { x := origin.x + size.w, y := y, z := origin.z - 1 }) c t)
            size.h.toNat origin.y)
      ∧ (0 ≤ size.h → (size.h.toNat : Int) = size.h
          ∧ (2 * size.h.toNat : Int) = 2 * size.h
          ∧ origin.y + (size.h.toNat : Int) = origin.y + size.h)
      ∧ (size.h ≤ 0 → size.h.toNat = 0 ∧ isometric_fill_rect origin size c s = .ok s)
      ∧ isometric_fill_rect { x := 0, y := 0, z := 5 } { w := 2, h := 2 } c s
          = (bresenham_line (project s { x := 0, y := 0, z := 5 })
                (project s { x := 2, y := 0, z := 5 }) c s
              >>= fun t => bresenham_line (project t { x := 0, y := 1, z := 5 })
                (project t { x := 2, y := 1, z := 5 }) c t
              >>= fun t => bresenham_line (project t { x := 0, y := 0, z := 4 })
                (project t { x := 2, y := 0, z := 4 }) c t
              >>= fun t => bresenham_line (project t { x := 0, y := 1, z := 4 })
                (project t { x := 2, y := 1, z := 4 }) c t) := by
  have main : ∀ (o : Vec3) (sz : GSize) (t : State), isometric_fill_rect o sz c t
        = (run_span (fun y t => bresenham_line (project t { x := o.x, y := y, z := o.z })
              (project t { x := o.x + sz.w, y := y, z := o.z }) c t)
            sz.h.toNat o.y t
          >>= run_span (fun y t =>
              bresenham_line (project t { x := o.x, y := y, z := o.z - 1 })
                (project t { x := o.x + sz.w, y := y, z := o.z - 1 }) c t)
            sz.h.toNat o.y) := by
    intro o sz t
    unfold isometric_fill_rect
    simp only [bind_pure]
    rw [fill_rect_layer_run]
    cases run_span (fun y t => bresenham_line (project t { x := o.x, y := y, z := o.z })
              (project t { x := o.x + sz.w, y := y, z := o.z }) c t) sz.h.toNat o.y t with
    | error e => rfl
    | ok s1 => exact fill_rect_layer_run { o with z := o.z - 1 } sz c s1
  refine ⟨main origin size s, fun h => ⟨by omega, by omega, by omega⟩, fun h => ?_, ?_⟩
  · have h0 : size.h.toNat = 0 := by omega
    refine ⟨h0, ?_⟩
    rw [main origin size s, h0]
    rfl
  · rw [main]
    have e : ({ w := 2, h := 2 } : GSize).h.toNat = 2 := rfl
    have e2 : ∀ body : Int → State → Except Fault State,
        run_span body 2 0 = fun t => body 0 t >>= body (0 + 1) :=
      fun body => funext (fun t => run_span_two body 0 t)
    rw [e, run_span_two, e2]
    simp only [bind_assoc]
    rfl

/-- Witness of `fill_rect_lines`: with `size.h = -3` the call draws no line and
returns the state of the 144x168 target unchanged. -/
theorem fill_rect_lines_witness :
    isometric_fill_rect { x := 0, y := 0, z := 5 } { w := 2, h := -3 } { argb := 1 } display_target
      = .ok display_target :=
  ((fill_rect_lines { x := 0, y := 0, z := 5 } { w := 2, h := -3 } { argb := 1 }
    display_target).2.2.1 (by decide)).2

/-- C12: without `OPTIMIZE_FILL_BOX`, `isometric_fill_box` is `isometric_draw_rect`
at the layers `z = origin.z, origin.z + 1, ...` in increasing order, `z_height` of
them when `z_height ≥ 0` (the last at `origin.z + z_height - 1`) and none when
`z_height ≤ 0`, followed by one `isometric_fill_rect` at `z = origin.z + z_height - 1`
when `z_height ≥ 1` and at `z = origin.z` otherwise. -/
theorem fill_box_layers (origin : Vec3) (size : GSize) (z_height : Int) (c : GColor)
    (s : State) :
    isometric_fill_box false origin size z_height c s
        = (run_span (fun z t => isometric_draw_rect { x := origin.x, y := origin.y, z := z }
              size c t) z_height.toNat origin.z s
          >>= isometric_fill_rect
              { x := origin.x, y := origin.y,
                z := if 1 ≤ z_height then origin.z + z_height - 1 else origin.z } size c)
      ∧ (0 ≤ z_height → (z_height.toNat : Int) = z_height)
      ∧ (z_height ≤ 0 → z_height.toNat = 0
          ∧ isometric_fill_box false origin size z_height c s
              = isometric_fill_rect origin size c s) := by
  have hn : (origin.z + z_height - origin.z).toNat = z_height.toNat := by
    congr 1; ring
  have h := for_loop_run (fill_box_body false origin size c) (origin.z + z_height)
    z_height.toNat origin.z (for_fuel origin.z (origin.z + z_height)) s hn.symm
    (by unfold for_fuel; omega)
  have hbody : fill_box_body false origin size c
      = fun z t => isometric_draw_rect { x := origin.x, y := origin.y, z := z } size c t := rfl
  have hz : (if z_height > 0 then origin.z + (z_height.toNat : Int) - 1
      else origin.z + (z_height.toNat : Int))
      = if 1 ≤ z_height then origin.z + z_height - 1 else origin.z := by
    by_cases hp : z_height > 0
    · rw [if_pos hp, if_pos (by omega)]; omega
    · rw [if_neg hp, if_neg (by omega)]; omega
  have main : isometric_fill_box false origin size z_height c s
        = (run_span (fun z t => isometric_draw_rect { x := origin.x, y := origin.y, z := z }
              size c t) z_height.toNat origin.z s
          >>= isometric_fill_rect
              { x := origin.x, y := origin.y,
                z := if 1 ≤ z_height then origin.z + z_height - 1 else origin.z } size c) := by
    unfold isometric_fill_box
    rw [h, hbody]
    cases run_span (fun z t => isometric_draw_rect { x := origin.x, y := origin.y, z := z }
              size c t) z_height.toNat origin.z s with
    | error e => rfl
    | ok s1 =>
      show isometric_fill_rect (Vec3.mk origin.x origin.y
          (if z_height > 0 then origin.z + (z_height.toNat : Int) - 1
            else origin.z + (z_height.toNat : Int))) size c s1 = _
      rw [hz]
      rfl
  refine ⟨main, fun h0 => by omega, fun h0 => ?_⟩
  have hz0 : z_height.toNat = 0 := by omega
  refine ⟨hz0, ?_⟩
  rw [main, hz0, if_neg (by omega)]
  rfl

/-- Witness of `fill_box_layers`: with `z_height = -2` the call is the cap alone,
an `isometric_fill_rect` at the origin. -/
theorem fill_box_layers_witness :
    isometric_fill_box false { x := 3, y := 1, z := 2 } { w := 4, h := 2 } (-2) { argb := 1 }
        display_target
      = isometric_fill_rect { x := 3, y := 1, z := 2 } { w := 4, h := 2 } { argb := 1 }
          display_target :=
  ((fill_box_layers { x := 3, y := 1, z := 2 } { w := 4, h := 2 } (-2) { argb := 1 }
    display_target).2.2 (by decide)).2

/-! ### A single pixel -/

theorem set_pixel_cells (s s1 : State) (p : GPoint) (c : GColor)
    (h : set_pixel s p c = .ok s1) :
    ∀ j : Nat, j ≠ (pixel_offset s p).toNat → cell s1 j = cell s j := by
  intro j hj
  by_cases hp : on_display p
  · cases hd : s.s_fb_data with
    | none => simp [set_pixel, hp, hd] at h
    | some data =>
      by_cases hr : 0 ≤ pixel_offset s p ∧ pixel_offset s p < data.length
      · rw [set_pixel_on s p c data hd hp hr.1 hr.2] at h
        simp only [Except.ok.injEq] at h
        subst h
        have hne : (pixel_offset s p).toNat ≠ j := fun e => hj e.symm
        simp [cell, hd, List.getElem?_set, hne]
      · simp [set_pixel, hp, hd, hr] at h
  · rw [set_pixel_off s p c hp] at h
    simp only [Except.ok.injEq] at h
    subst h
    rfl

/-- C14: on an active target of width `W`, `isometric_draw_pixel point c` is
`set_pixel (project point) c`: when the projected point is inside the visible area
(and its offset `y * W + x` inside the pixel array) it stores the byte of `c` at
that offset (the value `c.argb` as a `uint8_t`), otherwise it changes nothing;
whenever it returns, every cell other than the one at that offset keeps its
value. -/
theorem draw_pixel_spec (s : State) (data : List Nat) (W : Int) (point : Vec3) (c : GColor)
    (hd : s.s_fb_data = some data) (hW : s.s_fb_size.w = W) :
    isometric_draw_pixel point c s = set_pixel s (project s point) c
      ∧ (on_display (project s point) →
          0 ≤ (project s point).y * W + (project s point).x →
          (project s point).y * W + (project s point).x < data.length →
          ∃ s1 : State, isometric_draw_pixel point c s = .ok s1
            ∧ cell s1 ((project s point).y * W + (project s point).x).toNat
                = some (c.argb % 256))
      ∧ (¬ on_display (project s point) → isometric_draw_pixel point c s = .ok s)
      ∧ (∀ s1 : State, isometric_draw_pixel point c s = .ok s1 →
          ∀ j : Nat, j ≠ ((project s point).y * W + (project s point).x).toNat →
            cell s1 j = cell s j) := by
  subst hW
  refine ⟨rfl, fun hp h0 h1 => ?_, fun hp => set_pixel_off s _ c hp, fun s1 h1 =>
    set_pixel_cells s s1 (project s point) c h1⟩
  refine ⟨_, set_pixel_on s (project s point) c data hd hp h0 h1, ?_⟩
  have hlt : ((project s point).y * s.s_fb_size.w + (project s point).x).toNat < data.length := by
    omega
  simp [cell, pixel_offset, List.getElem?_set, hlt, color_byte]

/-- Witness of `draw_pixel_spec`: on the 144x168 target the world point (10,4,-20)
goes to the screen point (6,27), and the byte 9 is stored at offset 27 * 144 + 6. -/
theorem draw_pixel_spec_witness :
    ∃ s1 : State, isometric_draw_pixel { x := 10, y := 4, z := -20 } { argb := 9 } display_target
        = .ok s1
      ∧ cell s1 ((project display_target { x := 10, y := 4, z := -20 }).y * 144
          + (project display_target { x := 10, y := 4, z := -20 }).x).toNat
          = some 9 :=
  (draw_pixel_spec display_target (List.replicate 24192 0) 144 { x := 10, y := 4, z := -20 }
    { argb := 9 } rfl rfl).2.1 (by decide) (by decide)
    (by rw [List.length_replicate]; decide)

/-! ### The shape of a line -/

theorem line_points_get (start finish : GPoint) (i : Nat) (p : GPoint)
    (h : (line_points start finish)[i]? = some p) :
    (i : Int) ≤ max (line_dx start finish) (line_dy start finish)
      ∧ p = ((bresenham_step (line_dx start finish) (line_sx start finish) (line_dy start finish)
          (line_sy start finish))^[i] (line_init start finish)).start := by
  have hn := line_fuel_eq start finish
  have h1 : 1 ≤ line_fuel start finish := by unfold line_fuel; omega
  rw [line_points_eq, List.getElem?_map] at h
  by_cases hi : i < line_fuel start finish
  · rw [List.getElem?_range hi] at h
    simp only [Option.map_some', Option.some.injEq] at h
    exact ⟨by omega, h.symm⟩
  · rw [List.getElem?_eq_none (by rw [List.length_range]; omega)] at h
    simp at h

theorem bresenham_step_x (dx sx dy sy : Int) (v : LineVars) :
    (bresenham_step dx sx dy sy v).start.x = v.start.x
      ∨ (bresenham_step dx sx dy sy v).start.x = v.start.x + sx := by
  by_cases h1 : v.err > -dx <;> by_cases h2 : v.err < dy <;>
    simp [bresenham_step, h1, h2]

theorem bresenham_step_y (dx sx dy sy : Int) (v : LineVars) :
    (bresenham_step dx sx dy sy v).start.y = v.start.y
      ∨ (bresenham_step dx sx dy sy v).start.y = v.start.y + sy := by
  by_cases h1 : v.err > -dx <;> by_cases h2 : v.err < dy <;>
    simp [bresenham_step, h1, h2]

/-- C15: consecutive points of the sequence `bresenham_line` plots are
8-connected neighbours: from one to the next `x` changes by 0 or by the fixed sign
`sx`, `y` by 0 or by the fixed sign `sy`, and not both by 0; a step may change both,
as the only step of the line (0,0)-(1,1) does. -/
theorem line_points_connected (start finish : GPoint) (i : Nat) (p q : GPoint)
    (hp : (line_points start finish)[i]? = some p)
    (hq : (line_points start finish)[i + 1]? = some q) :
    (q.x = p.x ∨ q.x = p.x + (if start.x < finish.x then 1 else -1))
      ∧ (q.y = p.y ∨ q.y = p.y + (if start.y < finish.y then 1 else -1))
      ∧ (q.x ≠ p.x ∨ q.y ≠ p.y)
      ∧ line_points { x := 0, y := 0 } { x := 1, y := 1 }
          = [{ x := 0, y := 0 }, { x := 1, y := 1 }] := by
  obtain ⟨hi, rfl⟩ := line_points_get start finish i p hp
  obtain ⟨hi1, rfl⟩ := line_points_get start finish (i + 1) q hq
  refine ⟨?_, ?_, ?_, by decide⟩
  · rw [Function.iterate_succ_apply']
    exact bresenham_step_x _ _ _ _ _
  · rw [Function.iterate_succ_apply']
    exact bresenham_step_y _ _ _ _ _
  · obtain ⟨a, b, _, _, _, _, _, hpos, _, hax, hby⟩ := line_walk_full start finish i hi
    obtain ⟨a1, b1, _, _, _, _, _, hpos1, _, hax1, hby1⟩ :=
      line_walk_full start finish (i + 1) hi1
    rw [hpos, hpos1]
    simp only
    rcases le_total (line_dy start finish) (line_dx start finish) with h | h
    · left
      rw [hax h, hax1 h]
      push_cast
      rcases line_sx_cases start finish with e | e <;> rw [e] <;> omega
    · right
      rw [hby h, hby1 h]
      push_cast
      rcases line_sy_cases start finish with e | e <;> rw [e] <;> omega

/-- Witness of `line_points_connected`: on the line from (0,0) to (-2,-5) the
points number 2 and 3 are (-1,-2) and (-1,-3). -/
theorem line_points_connected_witness :
    (({ x := -1, y := -3 } : GPoint).x = ({ x := -1, y := -2 } : GPoint).x
        ∨ ({ x := -1, y := -3 } : GPoint).x = ({ x := -1, y := -2 } : GPoint).x
            + (if ({ x := 0, y := 0 } : GPoint).x < ({ x := -2, y := -5 } : GPoint).x
                then 1 else -1))
      ∧ (({ x := -1, y := -3 } : GPoint).y = ({ x := -1, y := -2 } : GPoint).y
        ∨ ({ x := -1, y := -3 } : GPoint).y = ({ x := -1, y := -2 } : GPoint).y
            + (if ({ x := 0, y := 0 } : GPoint).y < ({ x := -2, y := -5 } : GPoint).y
                then 1 else -1)) :=
  have h := line_points_connected { x := 0, y := 0 } { x := -2, y := -5 } 2
    { x := -1, y := -2 } { x := -1, y := -3 } (by decide) (by decide)
  ⟨h.1, h.2.1⟩

theorem line_err_xmajor_half (start finish : GPoint)
    (h : line_dy start finish < line_dx start finish) :
    2 * line_err start finish ≤ line_dx start finish
      ∧ line_dx start finish ≤ 2 * line_err start finish + 1 := by
  have h0 := line_dy_nonneg start finish
  unfold line_err
  rw [if_pos h, tdiv_two_nonneg _ (by omega)]
  omega

theorem line_err_ymajor_half (start finish : GPoint)
    (h : line_dx start finish ≤ line_dy start finish) :
    -line_dy start finish ≤ 2 * line_err start finish
      ∧ 2 * line_err start finish ≤ 1 - line_dy start finish := by
  have h0 := line_dy_nonneg start finish
  unfold line_err
  rw [if_neg (by omega), tdiv_two_neg _ h0]
  omega

theorem line_walk_err (start finish : GPoint) (k : Nat)
    (hk : (k : Int) ≤ max (line_dx start finish) (line_dy start finish)) :
    ∃ a b : Int,
      ((bresenham_step (line_dx start finish) (line_sx start finish) (line_dy start finish)
            (line_sy start finish))^[k] (line_init start finish)).start
          = { x := start.x + line_sx start finish * a, y := start.y + line_sy start finish * b }
      ∧ 2 * |a * line_dy start finish - b * line_dx start finish|
          ≤ max (line_dx start finish) (line_dy start finish) := by
  have hdx := line_dx_nonneg start finish
  have hdy := line_dy_nonneg start finish
  have e0 : (line_init start finish).err = line_err start finish := rfl
  have e1 : (line_init start finish).start = start := rfl
  rcases lt_or_le (line_dy start finish) (line_dx start finish) with hlt | hle
  · have herr := line_err_xmajor start finish hlt
    have hhalf := line_err_xmajor_half start finish hlt
    obtain ⟨b, _, _, hx, hy, he, hl, hu⟩ :=
      xmajor_iter (line_dx start finish) (line_sx start finish) (line_dy start finish)
        (line_sy start finish) (line_init start finish) hdy hlt herr.1 herr.2 k
    rw [e0] at he
    rw [e1] at hx hy
    refine ⟨k, b, ?_, ?_⟩
    · cases hv : (bresenham_step (line_dx start finish) (line_sx start finish)
          (line_dy start finish) (line_sy start finish))^[k] (line_init start finish) with
      | mk p e =>
        rw [hv] at hx hy
        cases p with
        | mk px py => simpa using ⟨hx, hy⟩
    · rw [max_eq_left (le_of_lt hlt), ← abs_two, ← abs_mul, abs_le]
      constructor <;> linarith
  · have hhalf := line_err_ymajor_half start finish hle
    rcases eq_or_lt_of_le hdy with hz | hpos
    · have hdx0 : line_dx start finish = 0 := by omega
      have hk0 : k = 0 := by
        rw [← hz, hdx0] at hk; simpa using hk
      subst hk0
      refine ⟨0, 0, by simp [line_init], ?_⟩
      rw [← hz, hdx0]; simp
    · have herr := line_err_ymajor start finish hle hpos
      obtain ⟨a, _, _, hx, hy, he, hl, hu⟩ :=
        ymajor_iter (line_dx start finish) (line_sx start finish) (line_dy start finish)
          (line_sy start finish) (line_init start finish) hdx hle herr.1 herr.2 k
      rw [e0] at he
      rw [e1] at hx hy
      refine ⟨a, k, ?_, ?_⟩
      · cases hv : (bresenham_step (line_dx start finish) (line_sx start finish)
            (line_dy start finish) (line_sy start finish))^[k] (line_init start finish) with
        | mk p e =>
          rw [hv] at hx hy
          cases p with
          | mk px py => simpa using ⟨hx, hy⟩
      · rw [max_eq_right hle, ← abs_two, ← abs_mul, abs_le]
        constructor <;> linarith

/-- C16: every point `bresenham_line` plots lies within half a pixel of the ideal
segment, measured along the minor axis:
`2 * |(x - x0) * (y1 - y0) - (y - y0) * (x1 - x0)| ≤ max(|x1 - x0|, |y1 - y0|)`. -/
theorem line_points_near (start finish p : GPoint) (hp : p ∈ line_points start finish) :
    2 * |(p.x - start.x) * (finish.y - start.y) - (p.y - start.y) * (finish.x - start.x)|
      ≤ max |finish.x - start.x| |finish.y - start.y| := by
  have hm : max |finish.x - start.x| |finish.y - start.y|
      = max (line_dx start finish) (line_dy start finish) := by
    rw [line_dx, line_dy, c_abs_eq_abs, c_abs_eq_abs]
  obtain ⟨k, hk, rfl⟩ := (mem_line_points start finish p).1 hp
  obtain ⟨a, b, hpos, hbound⟩ := line_walk_err start finish k hk
  have hfx : finish.x - start.x = line_sx start finish * line_dx start finish := by
    have := line_finish_x start finish; omega
  have hfy : finish.y - start.y = line_sy start finish * line_dy start finish := by
    have := line_finish_y start finish; omega
  rw [hm, hpos, hfx, hfy]
  simp only
  have key : |(start.x + line_sx start finish * a - start.x)
        * (line_sy start finish * line_dy start finish)
      - (start.y + line_sy start finish * b - start.y)
        * (line_sx start finish * line_dx start finish)|
      = |a * line_dy start finish - b * line_dx start finish| := by
    rcases line_sx_cases start finish with e1 | e1 <;>
      rcases line_sy_cases start finish with e2 | e2 <;> rw [e1, e2]
    · congr 1; ring
    · rw [← abs_neg]; congr 1; ring
    · rw [← abs_neg]; congr 1; ring
    · congr 1; ring
  rw [key]
  exact hbound

/-- Witness of `line_points_near`: the point (2,1) of the line from (0,0) to (5,2). -/
theorem line_points_near_witness :
    2 * |((2 : Int) - 0) * (2 - 0) - (1 - 0) * (5 - 0)| ≤ max |(5 : Int) - 0| |(2 : Int) - 0| :=
  line_points_near { x := 0, y := 0 } { x := 5, y := 2 } { x := 2, y := 1 } (by decide)

/-! ### Octants and translations -/

theorem line_points_canon (start finish : GPoint) :
    line_points start finish
      = (List.range (line_fuel start finish)).map (fun i =>
          ({ x := start.x + line_sx start finish
                * ((bresenham_step (line_dx start finish) 1 (line_dy start finish) 1)^[i]
                    { start := { x := 0, y := 0 }, err := line_err start finish }).start.x
             y := start.y + line_sy start finish
                * ((bresenham_step (line_dx start finish) 1 (line_dy start finish) 1)^[i]
                    { start := { x := 0, y := 0 }, err := line_err start finish }).start.y }
            : GPoint)) := by
  rw [line_points_eq]
  apply List.map_congr_left
  intro i _
  have hinit : line_init start finish
      = { start := { x := start.x, y := start.y }, err := line_err start finish } := rfl
  rw [hinit, step_canon]

theorem line_points_translate (start finish t : GPoint) :
    line_points { x := start.x + t.x, y := start.y + t.y }
        { x := finish.x + t.x, y := finish.y + t.y }
      = (line_points start finish).map (fun q => { x := q.x + t.x, y := q.y + t.y }) := by
  have hdx : line_dx { x := start.x + t.x, y := start.y + t.y }
      { x := finish.x + t.x, y := finish.y + t.y } = line_dx start finish := by
    simp [line_dx]
  have hdy : line_dy { x := start.x + t.x, y := start.y + t.y }
      { x := finish.x + t.x, y := finish.y + t.y } = line_dy start finish := by
    simp [line_dy]
  have hsx : line_sx { x := start.x + t.x, y := start.y + t.y }
      { x := finish.x + t.x, y := finish.y + t.y } = line_sx start finish := by
    simp [line_sx]
  have hsy : line_sy { x := start.x + t.x, y := start.y + t.y }
      { x := finish.x + t.x, y := finish.y + t.y } = line_sy start finish := by
    simp [line_sy]
  have herr : line_err { x := start.x + t.x, y := start.y + t.y }
      { x := finish.x + t.x, y := finish.y + t.y } = line_err start finish := by
    unfold line_err; rw [hdx, hdy]
  have hfuel : line_fuel { x := start.x + t.x, y := start.y + t.y }
      { x := finish.x + t.x, y := finish.y + t.y } = line_fuel start finish := by
    unfold line_fuel; rw [hdx, hdy]
  rw [line_points_canon, line_points_canon start finish, hdx, hdy, hsx, hsy, herr, hfuel,
    List.map_map]
  apply List.map_congr_left
  intro i _
  simp only [Function.comp, GPoint.mk.injEq]
  constructor <;> ring

theorem line_points_from_origin (start finish : GPoint) :
    line_points start finish
      = (line_points { x := 0, y := 0 }
            { x := line_dx start finish, y := line_dy start finish }).map
          (fun q => { x := start.x + line_sx start finish * q.x
                      y := start.y + line_sy start finish * q.y }) := by
  have h0x := line_dx_nonneg start finish
  have h0y := line_dy_nonneg start finish
  generalize hO : ({ x := line_dx start finish, y := line_dy start finish } : GPoint) = fin0
  have hdx : line_dx { x := 0, y := 0 } fin0 = line_dx start finish := by
    rw [← hO]; simp only [line_dx, c_abs]; split <;> omega
  have hdy : line_dy { x := 0, y := 0 } fin0 = line_dy start finish := by
    rw [← hO]; simp only [line_dy, c_abs]; split <;> omega
  have herr : line_err { x := 0, y := 0 } fin0 = line_err start finish := by
    unfold line_err; rw [hdx, hdy]
  have hfuel : line_fuel { x := 0, y := 0 } fin0 = line_fuel start finish := by
    unfold line_fuel; rw [hdx, hdy]
  have hn := line_fuel_eq start finish
  have h1 : 1 ≤ line_fuel start finish := by unfold line_fuel; omega
  rw [line_points_canon, line_points_eq { x := 0, y := 0 } fin0, hfuel, List.map_map]
  apply List.map_congr_left
  intro i hi
  rw [List.mem_range] at hi
  have hi' : (i : Int) ≤ max (line_dx { x := 0, y := 0 } fin0) (line_dy { x := 0, y := 0 } fin0) := by
    rw [hdx, hdy]; omega
  obtain ⟨a, b, ha0, ha, hb0, hb, _, hpos, _⟩ := line_walk_full { x := 0, y := 0 } fin0 i hi'
  have hcan := step_canon (line_dx { x := 0, y := 0 } fin0) (line_sx { x := 0, y := 0 } fin0)
    (line_dy { x := 0, y := 0 } fin0) (line_sy { x := 0, y := 0 } fin0) 0 0
    (line_err { x := 0, y := 0 } fin0) i
  have hinit : line_init { x := 0, y := 0 } fin0
      = { start := { x := 0, y := 0 }, err := line_err { x := 0, y := 0 } fin0 } := rfl
  rw [hinit, hcan] at hpos
  simp only [GPoint.mk.injEq] at hpos
  obtain ⟨hx, hy⟩ := hpos
  simp only [Function.comp]
  rw [hinit, hcan]
  rw [hdx, hdy, herr] at hx hy ⊢
  simp only at hx hy ⊢
  have hsx0 : line_sx { x := 0, y := 0 } fin0 = 1 ∨ a = 0 := by
    by_cases hpos : 0 < line_dx start finish
    · left; rw [← hO]; simp [line_sx, hpos]
    · right; rw [hdx] at ha; omega
  have hsy0 : line_sy { x := 0, y := 0 } fin0 = 1 ∨ b = 0 := by
    by_cases hpos : 0 < line_dy start finish
    · left; rw [← hO]; simp [line_sy, hpos]
    · right; rw [hdy] at hb; omega
  have ex : (0 : Int) + line_sx { x := 0, y := 0 } fin0
      * ((bresenham_step (line_dx start finish) 1 (line_dy start finish) 1)^[i]
          { start := { x := 0, y := 0 }, err := line_err start finish }).start.x
      = ((bresenham_step (line_dx start finish) 1 (line_dy start finish) 1)^[i]
          { start := { x := 0, y := 0 }, err := line_err start finish }).start.x := by
    rcases hsx0 with e | e
    · rw [e]; ring
    · rcases line_sx_cases { x := 0, y := 0 } fin0 with e1 | e1 <;> rw [e1] at hx ⊢ <;> omega
  have ey : (0 : Int) + line_sy { x := 0, y := 0 } fin0
      * ((bresenham_step (line_dx start finish) 1 (line_dy start finish) 1)^[i]
          { start := { x := 0, y := 0 }, err := line_err start finish }).start.y
      = ((bresenham_step (line_dx start finish) 1 (line_dy start finish) 1)^[i]
          { start := { x := 0, y := 0 }, err := line_err start finish }).start.y := by
    rcases hsy0 with e | e
    · rw [e]; ring
    · rcases line_sy_cases { x := 0, y := 0 } fin0 with e1 | e1 <;> rw [e1] at hy ⊢ <;> omega
  rw [ex, ey]

/-- C17: `bresenham_line` treats all octants by sign alone: with
`dx = |finish.x - start.x|`, `dy = |finish.y - start.y|` and the signs `sx`, `sy`,
the points of the line from `start` to `finish` are, in order,
`(start.x + sx * a, start.y + sy * b)` for the points `(a, b)` of the line from
(0,0) to `(dx, dy)`; and moving both end points by a vector moves every plotted
point by it. -/
theorem line_points_octant (start finish : GPoint) :
    line_points start finish
        = (line_points { x := 0, y := 0 }
              { x := |finish.x - start.x|, y := |finish.y - start.y| }).map
            (fun q => { x := start.x + (if start.x < finish.x then 1 else -1) * q.x
                        y := start.y + (if start.y < finish.y then 1 else -1) * q.y })
      ∧ ∀ t : GPoint,
          line_points { x := start.x + t.x, y := start.y + t.y }
              { x := finish.x + t.x, y := finish.y + t.y }
            = (line_points start finish).map (fun q => { x := q.x + t.x, y := q.y + t.y }) := by
  refine ⟨?_, line_points_translate start finish⟩
  have h := line_points_from_origin start finish
  rw [line_dx, line_dy, c_abs_eq_abs, c_abs_eq_abs] at h
  exact h

/-! ### The outline of a rectangle -/

theorem project_shift_y (s : State) (x y z w h : Int) :
    project_wide s { x := x + w, y := y + h, z := z }
      = { x := (project_wide s { x := x + w, y := y, z := z }).x
            + ((project_wide s { x := x, y := y + h, z := z }).x - (project_wide s { x := x, y := y, z := z }).x)
          y := (project_wide s { x := x + w, y := y, z := z }).y
            + ((project_wide s { x := x, y := y + h, z := z }).y
                - (project_wide s { x := x, y := y, z := z }).y) } := by
  cases he : s.s_enabled
  · simp [project_wide, he]
  · simp only [project_wide, he, if_true, GPoint.mk.injEq]
    constructor <;> ring

theorem project_shift_x (s : State) (x y z w h : Int) :
    project_wide s { x := x + w, y := y + h, z := z }
      = { x := (project_wide s { x := x, y := y + h, z := z }).x
            + ((project_wide s { x := x + w, y := y, z := z }).x - (project_wide s { x := x, y := y, z := z }).x)
          y := (project_wide s { x := x, y := y + h, z := z }).y
            + ((project_wide s { x := x + w, y := y, z := z }).y
                - (project_wide s { x := x, y := y, z := z }).y) } := by
  cases he : s.s_enabled
  · simp [project_wide, he]
  · simp only [project_wide, he, if_true, GPoint.mk.injEq]
    constructor <;> ring

theorem gpoint_shift (a b : GPoint) : b = { x := a.x + (b.x - a.x), y := a.y + (b.y - a.y) } := by
  cases a; cases b; simp

theorem parallelogram_wide (s : State) (origin : Vec3) (size : GSize) :
    line_points (project_wide s { x := origin.x, y := origin.y + size.h, z := origin.z })
        (project_wide s { x := origin.x + size.w, y := origin.y + size.h, z := origin.z })
      = (line_points (project_wide s { x := origin.x, y := origin.y, z := origin.z })
            (project_wide s { x := origin.x + size.w, y := origin.y, z := origin.z })).map
          (fun q =>
            { x := q.x
                + ((project_wide s { x := origin.x, y := origin.y + size.h, z := origin.z }).x
                  - (project_wide s { x := origin.x, y := origin.y, z := origin.z }).x)
              y := q.y
                + ((project_wide s { x := origin.x, y := origin.y + size.h, z := origin.z }).y
                  - (project_wide s { x := origin.x, y := origin.y, z := origin.z }).y) })
    ∧ line_points (project_wide s { x := origin.x + size.w, y := origin.y, z := origin.z })
        (project_wide s { x := origin.x + size.w, y := origin.y + size.h, z := origin.z })
      = (line_points (project_wide s { x := origin.x, y := origin.y, z := origin.z })
            (project_wide s { x := origin.x, y := origin.y + size.h, z := origin.z })).map
          (fun q =>
            { x := q.x
                + ((project_wide s { x := origin.x + size.w, y := origin.y, z := origin.z }).x
                  - (project_wide s { x := origin.x, y := origin.y, z := origin.z }).x)
              y := q.y
                + ((project_wide s { x := origin.x + size.w, y := origin.y, z := origin.z }).y
                  - (project_wide s { x := origin.x, y := origin.y, z := origin.z }).y) }) := by
  constructor
  · have h := line_points_translate
      (project_wide s { x := origin.x, y := origin.y, z := origin.z })
      (project_wide s { x := origin.x + size.w, y := origin.y, z := origin.z })
      { x := (project_wide s { x := origin.x, y := origin.y + size.h, z := origin.z }).x
          - (project_wide s { x := origin.x, y := origin.y, z := origin.z }).x
        y := (project_wide s { x := origin.x, y := origin.y + size.h, z := origin.z }).y
          - (project_wide s { x := origin.x, y := origin.y, z := origin.z }).y }
    rw [← h]
    exact congrArg₂ line_points (gpoint_shift _ _)
      (project_shift_y s origin.x origin.y origin.z size.w size.h)
  · have h := line_points_translate
      (project_wide s { x := origin.x, y := origin.y, z := origin.z })
      (project_wide s { x := origin.x, y := origin.y + size.h, z := origin.z })
      { x := (project_wide s { x := origin.x + size.w, y := origin.y, z := origin.z }).x
          - (project_wide s { x := origin.x, y := origin.y, z := origin.z }).x
        y := (project_wide s { x := origin.x + size.w, y := origin.y, z := origin.z }).y
          - (project_wide s { x := origin.x, y := origin.y, z := origin.z }).y }
    rw [← h]
    exact congrArg₂ line_points (gpoint_shift _ _)
      (project_shift_x s origin.x origin.y origin.z size.w size.h)

/-- C19 as stated fails: the projected corners are stored in `int16_t` fields.
With the projector enabled at offset (0,0), origin (32760,0,0) and size (10,5), the
top edge runs from (32760,16380) to (-32766,16385) -- the x value 32770 narrowed --
and has 65527 points, while the bottom edge, from (32755,16382) to (32765,16387),
has 11: it is not the top edge moved by a vector. -/
theorem draw_rect_not_parallelogram :
    initial.s_enabled = true
    ∧ project initial { x := 32760 + 10, y := 0, z := 0 } = { x := -32766, y := 16385 }
    ∧ line_points (project initial { x := 32760, y := 0 + 5, z := 0 })
        (project initial { x := 32760 + 10, y := 0 + 5, z := 0 })
      ≠ (line_points (project initial { x := 32760, y := 0, z := 0 })
            (project initial { x := 32760 + 10, y := 0, z := 0 })).map
          (fun q =>
            { x := q.x + ((project initial { x := 32760, y := 0 + 5, z := 0 }).x
                - (project initial { x := 32760, y := 0, z := 0 }).x)
              y := q.y + ((project initial { x := 32760, y := 0 + 5, z := 0 }).y
                - (project initial { x := 32760, y := 0, z := 0 }).y) }) := by
  refine ⟨rfl, by decide, fun h => ?_⟩
  have hl := congrArg List.length h
  rw [List.length_map] at hl
  have hb : ((line_points (project initial { x := 32760, y := 0 + 5, z := 0 })
      (project initial { x := 32760 + 10, y := 0 + 5, z := 0 })).length : Int) = 11 := by
    rw [line_points_length]; decide
  have ht : ((line_points (project initial { x := 32760, y := 0, z := 0 })
      (project initial { x := 32760 + 10, y := 0, z := 0 })).length : Int) = 65527 := by
    rw [line_points_length]; decide
  rw [hl] at hb
  omega

/-- C19, amended: with the projector enabled, and provided the four corners
project without narrowing -- for `x` of `origin.x`, `origin.x + size.w` and `y` of
`origin.y`, `origin.y + size.h` the values `offset.x + (x - y)` and
`offset.y + (x / 2 + y / 2) - origin.z` lie in -32768 .. 32767 --
`isometric_draw_rect` draws an exact parallelogram: the points plotted for the
bottom edge are those of the top edge, in order, moved by the vector
`project (origin.x, origin.y + size.h, origin.z) - project origin`, and the points
of the right edge are those of the left edge moved by
`project (origin.x + size.w, origin.y, origin.z) - project origin`; the four edges
are what the call plots. -/
theorem draw_rect_parallelogram (s : State) (he : s.s_enabled = true) (origin : Vec3)
    (size : GSize)
    (hfit : ∀ x ∈ [origin.x, origin.x + size.w], ∀ y ∈ [origin.y, origin.y + size.h],
      -32768 ≤ s.s_projection_offset.x + (x - y)
      ∧ s.s_projection_offset.x + (x - y) ≤ 32767
      ∧ -32768 ≤ s.s_projection_offset.y + (Int.tdiv x 2 + Int.tdiv y 2) - origin.z
      ∧ s.s_projection_offset.y + (Int.tdiv x 2 + Int.tdiv y 2) - origin.z ≤ 32767) :
    line_points (project s { x := origin.x, y := origin.y + size.h, z := origin.z })
        (project s { x := origin.x + size.w, y := origin.y + size.h, z := origin.z })
      = (line_points (project s origin)
            (project s { x := origin.x + size.w, y := origin.y, z := origin.z })).map
          (fun q =>
            { x := q.x + ((project s { x := origin.x, y := origin.y + size.h, z := origin.z }).x
                - (project s origin).x)
              y := q.y + ((project s { x := origin.x, y := origin.y + size.h, z := origin.z }).y
                - (project s origin).y) })
    ∧ line_points (project s { x := origin.x + size.w, y := origin.y, z := origin.z })
        (project s { x := origin.x + size.w, y := origin.y + size.h, z := origin.z })
      = (line_points (project s origin)
            (project s { x := origin.x, y := origin.y + size.h, z := origin.z })).map
          (fun q =>
            { x := q.x + ((project s { x := origin.x + size.w, y := origin.y, z := origin.z }).x
                - (project s origin).x)
              y := q.y + ((project s { x := origin.x + size.w, y := origin.y, z := origin.z }).y
                - (project s origin).y) })
    ∧ rect_points (project s) origin size
      = line_points (project s origin)
            (project s { x := origin.x + size.w, y := origin.y, z := origin.z })
        ++ (line_points (project s { x := origin.x + size.w, y := origin.y, z := origin.z })
            (project s { x := origin.x + size.w, y := origin.y + size.h, z := origin.z })
        ++ (line_points (project s { x := origin.x, y := origin.y + size.h, z := origin.z })
            (project s { x := origin.x + size.w, y := origin.y + size.h, z := origin.z })
        ++ line_points (project s origin)
            (project s { x := origin.x, y := origin.y + size.h, z := origin.z })))
    ∧ ∀ c : GColor, isometric_draw_rect origin size c s
        = plot_points c (rect_points (project s) origin size) s := by
  have hproj : ∀ x ∈ [origin.x, origin.x + size.w], ∀ y ∈ [origin.y, origin.y + size.h],
      project s { x := x, y := y, z := origin.z }
        = project_wide s { x := x, y := y, z := origin.z } := by
    intro x hx y hy
    obtain ⟨a1, a2, a3, a4⟩ := hfit x hx y hy
    apply project_eq_wide <;> simp only [project_wide, he, if_true] <;> assumption
  have e00 : project s origin = project_wide s { x := origin.x, y := origin.y, z := origin.z } :=
    hproj _ (by simp) _ (by simp)
  have e10 := hproj (origin.x + size.w) (by simp) origin.y (by simp)
  have e01 := hproj origin.x (by simp) (origin.y + size.h) (by simp)
  have e11 := hproj (origin.x + size.w) (by simp) (origin.y + size.h) (by simp)
  refine ⟨?_, ?_, rfl, fun c => plots_draw_rect c origin size s⟩
  · rw [e00, e10, e01, e11]
    exact (parallelogram_wide s origin size).1
  · rw [e00, e10, e01, e11]
    exact (parallelogram_wide s origin size).2

/-- Witness of `draw_rect_parallelogram`: at offset (0,0) the rectangle at (3,1,2)
of size (6,4): its bottom edge is its top edge moved by the vector from the
projection of (3,1,2) to that of (3,5,2). -/
theorem draw_rect_parallelogram_witness :
    line_points (project initial { x := 3, y := 1 + 4, z := 2 })
        (project initial { x := 3 + 6, y := 1 + 4, z := 2 })
      = (line_points (project initial { x := 3, y := 1, z := 2 })
            (project initial { x := 3 + 6, y := 1, z := 2 })).map
          (fun q =>
            { x := q.x + ((project initial { x := 3, y := 1 + 4, z := 2 }).x
                - (project initial { x := 3, y := 1, z := 2 }).x)
              y := q.y + ((project initial { x := 3, y := 1 + 4, z := 2 }).y
                - (project initial { x := 3, y := 1, z := 2 }).y) }) :=
  (draw_rect_parallelogram initial rfl { x := 3, y := 1, z := 2 } { w := 6, h := 4 }
    (by decide)).1

/-! ### The vertical edges of a box -/

theorem vertical_edge (s : State) (he : s.s_enabled = true) (cx cy z z_height : Int)
    (hz : 0 ≤ z_height) :
    ((line_points (project_wide s { x := cx, y := cy, z := z })
        (project_wide s { x := cx, y := cy, z := z + z_height })).length : Int) = z_height + 1
      ∧ ∀ p : GPoint,
          p ∈ line_points (project_wide s { x := cx, y := cy, z := z })
              (project_wide s { x := cx, y := cy, z := z + z_height })
            ↔ p.x = (project_wide s { x := cx, y := cy, z := z }).x
              ∧ (project_wide s { x := cx, y := cy, z := z }).y - z_height ≤ p.y
              ∧ p.y ≤ (project_wide s { x := cx, y := cy, z := z }).y := by
  have e1 : project_wide s { x := cx, y := cy, z := z }
      = { x := s.s_projection_offset.x + (cx - cy)
          y := s.s_projection_offset.y + (Int.tdiv cx 2 + Int.tdiv cy 2) - z } := by
    simp [project_wide, he]
  have e2 : project_wide s { x := cx, y := cy, z := z + z_height }
      = { x := s.s_projection_offset.x + (cx - cy)
          y := s.s_projection_offset.y + (Int.tdiv cx 2 + Int.tdiv cy 2) - z - z_height } := by
    simp only [project_wide, he, if_true, GPoint.mk.injEq, true_and]
    ring
  rw [e1, e2]
  constructor
  · rw [line_points_length]
    simp only [line_dx, line_dy, c_abs]
    rw [max_eq_right (by split <;> split <;> omega)]
    split <;> omega
  · intro p
    rw [mem_vertical]
    simp only
    rw [min_eq_right (by omega), max_eq_left (by omega)]

/-- C18 as stated fails: the projected corners are stored in `int16_t` fields.
With the projector enabled at offset (0,0), for the box at (0,0,0) of size (4,4)
and `z_height = 40000` the edge from the corner (0,4) runs from (-4,2) to
(-4,25538) -- the row 2 - 40000 narrowed -- so it has 25537 points, not
`z_height + 1`, and the row 1 just above its lower corner is not plotted. -/
theorem draw_box_vertical_narrowed :
    initial.s_enabled = true
    ∧ project initial { x := 0, y := 0 + 4, z := 0 } = { x := -4, y := 2 }
    ∧ project initial { x := 0, y := 0 + 4, z := 0 + 40000 } = { x := -4, y := 25538 }
    ∧ ((line_points (project initial { x := 0, y := 0 + 4, z := 0 })
          (project initial { x := 0, y := 0 + 4, z := 0 + 40000 })).length : Int) = 25537
    ∧ ((line_points (project initial { x := 0, y := 0 + 4, z := 0 })
          (project initial { x := 0, y := 0 + 4, z := 0 + 40000 })).length : Int) ≠ 40000 + 1
    ∧ ({ x := -4, y := 1 } : GPoint)
        ∉ line_points (project initial { x := 0, y := 0 + 4, z := 0 })
            (project initial { x := 0, y := 0 + 4, z := 0 + 40000 }) := by
  have e1 : project initial { x := 0, y := 0 + 4, z := 0 } = { x := -4, y := 2 } := by decide
  have e2 : project initial { x := 0, y := 0 + 4, z := 0 + 40000 } = { x := -4, y := 25538 } := by
    decide
  have hl : ((line_points (project initial { x := 0, y := 0 + 4, z := 0 })
      (project initial { x := 0, y := 0 + 4, z := 0 + 40000 })).length : Int) = 25537 := by
    rw [line_points_length]; decide
  refine ⟨rfl, e1, e2, hl, by rw [hl]; decide, ?_⟩
  rw [e1, e2, mem_vertical]
  decide

/-- C18, amended: `isometric_draw_box` plots two bottom edges, the top rectangle and
then three vertical edges, from the world corners (x, y+h), (x+w, y+h) and (x+w, y)
at `origin.z` up to `origin.z + z_height`, and none from the corner (x, y).  With
the projector enabled and `z_height ≥ 0`, and provided both ends of each of these
edges project without narrowing -- for each of the three corners `(cx, cy)` and
`z` of `origin.z`, `origin.z + z_height` the values `offset.x + (cx - cy)` and
`offset.y + (cx / 2 + cy / 2) - z` lie in -32768 .. 32767 -- each of the three
plots `z_height + 1` points: exactly the points of the screen column of its
projected lower corner whose row lies between that corner's row minus `z_height`
and that corner's row.  For the box at (0,0,0) of size (4,4) and height 4 the
point (0,-2), which is where the middle of an edge from (x, y) would be, is not
plotted. -/
theorem draw_box_verticals (s : State) (he : s.s_enabled = true) (origin : Vec3) (size : GSize)
    (z_height : Int) (hz : 0 ≤ z_height)
    (hfit : ∀ corner ∈ [(origin.x, origin.y + size.h), (origin.x + size.w, origin.y + size.h),
          (origin.x + size.w, origin.y)],
        ∀ z ∈ [origin.z, origin.z + z_height],
          -32768 ≤ s.s_projection_offset.x + (corner.1 - corner.2)
          ∧ s.s_projection_offset.x + (corner.1 - corner.2) ≤ 32767
          ∧ -32768 ≤ s.s_projection_offset.y + (Int.tdiv corner.1 2 + Int.tdiv corner.2 2) - z
          ∧ s.s_projection_offset.y + (Int.tdiv corner.1 2 + Int.tdiv corner.2 2) - z
              ≤ 32767) :
    (∀ c : GColor, isometric_draw_box origin size z_height c s
        = plot_points c (draw_box_points (project s) origin size z_height) s)
    ∧ draw_box_points (project s) origin size z_height
        = line_points (project s { x := origin.x + size.w, y := origin.y, z := origin.z })
            (project s { x := origin.x + size.w, y := origin.y + size.h, z := origin.z })
          ++ (line_points (project s { x := origin.x, y := origin.y + size.h, z := origin.z })
            (project s { x := origin.x + size.w, y := origin.y + size.h, z := origin.z })
          ++ (rect_points (project s)
              { x := origin.x, y := origin.y, z := origin.z + z_height } size
          ++ (line_points (project s { x := origin.x, y := origin.y + size.h, z := origin.z })
            (project s { x := origin.x, y := origin.y + size.h, z := origin.z + z_height })
          ++ (line_points
            (project s { x := origin.x + size.w, y := origin.y + size.h, z := origin.z })
            (project s
              { x := origin.x + size.w, y := origin.y + size.h, z := origin.z + z_height })
          ++ line_points (project s { x := origin.x + size.w, y := origin.y, z := origin.z })
            (project s { x := origin.x + size.w, y := origin.y, z := origin.z + z_height })))))
    ∧ (∀ corner ∈ [(origin.x, origin.y + size.h), (origin.x + size.w, origin.y + size.h),
          (origin.x + size.w, origin.y)],
        ((line_points (project s { x := corner.1, y := corner.2, z := origin.z })
            (project s { x := corner.1, y := corner.2, z := origin.z + z_height })).length : Int)
          = z_height + 1
        ∧ ∀ p : GPoint,
            p ∈ line_points (project s { x := corner.1, y := corner.2, z := origin.z })
                (project s { x := corner.1, y := corner.2, z := origin.z + z_height })
              ↔ p.x = (project s { x := corner.1, y := corner.2, z := origin.z }).x
                ∧ (project s { x := corner.1, y := corner.2, z := origin.z }).y - z_height ≤ p.y
                ∧ p.y ≤ (project s { x := corner.1, y := corner.2, z := origin.z }).y)
    ∧ ({ x := 0, y := -2 } : GPoint)
        ∉ draw_box_points (project initial) { x := 0, y := 0, z := 0 } { w := 4, h := 4 } 4 := by
  refine ⟨fun c => plots_draw_box c origin size z_height s, rfl, fun corner hc => ?_, by decide⟩
  have hproj : ∀ z ∈ [origin.z, origin.z + z_height],
      project s { x := corner.1, y := corner.2, z := z }
        = project_wide s { x := corner.1, y := corner.2, z := z } := by
    intro z hzm
    obtain ⟨a1, a2, a3, a4⟩ := hfit corner hc z hzm
    apply project_eq_wide <;> simp only [project_wide, he, if_true] <;> assumption
  rw [hproj origin.z (by simp), hproj (origin.z + z_height) (by simp)]
  exact vertical_edge s he corner.1 corner.2 origin.z z_height hz

/-- Witness of `draw_box_verticals`: at offset (0,0), the edge of the box at
(0,0,0) of size (4,4) and height 4 that rises from the corner (4,4) has 5 points. -/
theorem draw_box_verticals_witness :
    ((line_points (project initial { x := 4, y := 4, z := 0 })
        (project initial { x := 4, y := 4, z := 0 + 4 })).length : Int) = 4 + 1 :=
  ((draw_box_verticals initial rfl { x := 0, y := 0, z := 0 } { w := 4, h := 4 } 4
    (by decide) (by decide)).2.2.1 (4, 4) (by simp)).1

/-! ### Offsets stay inside the pixel array -/

theorem display_offset_lt (W : Int) (hW : 144 ≤ W) (j : Nat) (h : display_offset W j) :
    (j : Int) < W * 168 := by
  obtain ⟨x, y, _, hx1, _, hy1, hj⟩ := h
  have h1 : y * W ≤ 167 * W := mul_le_mul_of_nonneg_right (by omega) (by omega)
  omega

/-- C20: if the active target has width `W ≥ 144` and its pixel array holds at
least `W * 168` bytes (the recorded height is not consulted), then every point that
passes the guard of `set_pixel` has its offset in `0 ≤ offset < W * 168`, and each
of the five drawing calls, with any arguments, returns normally -- no write falls
outside the array -- leaving every cell from offset `W * 168` on as it was. -/
theorem offsets_in_range (optimize : Bool) (s : State) (data : List Nat) (W : Int)
    (hd : s.s_fb_data = some data) (hW : s.s_fb_size.w = W) (hw : 144 ≤ W)
    (hlen : W * 168 ≤ data.length)
    (point origin : Vec3) (size : GSize) (z_height : Int) (c : GColor) :
    (∀ p : GPoint, (0 ≤ p.x ∧ p.x < 144 ∧ 0 ≤ p.y ∧ p.y < 168) →
        0 ≤ p.y * W + p.x ∧ p.y * W + p.x < W * 168
          ∧ (p.y * W + p.x).toNat < data.length)
    ∧ ∀ r ∈ [isometric_draw_pixel point c s, isometric_draw_rect origin size c s,
        isometric_fill_rect origin size c s, isometric_fill_box optimize origin size z_height c s,
        isometric_draw_box origin size z_height c s],
      r ≠ .error .outOfRange
      ∧ ∃ s1 : State, r = .ok s1 ∧ ∀ j : Nat, W * 168 ≤ (j : Int) → cell s1 j = cell s j := by
  subst hW
  have hhold : holds_display s := ⟨data, hd, by omega, by omega⟩
  have key : ∀ (f : State → Except Fault State) (pts : (Vec3 → GPoint) → List GPoint),
      Plots c f pts →
      f s ≠ .error .outOfRange
      ∧ ∃ s1 : State, f s = .ok s1
          ∧ ∀ j : Nat, s.s_fb_size.w * 168 ≤ (j : Int) → cell s1 j = cell s j := by
    intro f pts hf
    obtain ⟨hret, hfr⟩ := plots_frame c f pts hf s
    obtain ⟨s1, h1⟩ := hret hhold
    refine ⟨by rw [h1]; simp, s1, h1, fun j hj => ?_⟩
    exact (hfr s1 h1).1 j (fun hoff => by
      have := display_offset_lt s.s_fb_size.w hw j hoff
      omega)
  refine ⟨fun p hp => ?_, fun r hr => ?_⟩
  · obtain ⟨hx0, hx1, hy0, hy1⟩ := hp
    have h1 : p.y * s.s_fb_size.w ≤ 167 * s.s_fb_size.w :=
      mul_le_mul_of_nonneg_right (by omega) (by omega)
    have h2 : 0 ≤ p.y * s.s_fb_size.w := mul_nonneg hy0 (by omega)
    refine ⟨by omega, by omega, by omega⟩
  · simp only [List.mem_cons, List.mem_singleton, List.not_mem_nil, or_false] at hr
    rcases hr with rfl | rfl | rfl | rfl | rfl
    · exact key _ _ (plots_draw_pixel c point)
    · exact key _ _ (plots_draw_rect c origin size)
    · exact key _ _ (plots_fill_rect c origin size)
    · exact key _ _ (plots_fill_box optimize c origin size z_height)
    · exact key _ _ (plots_draw_box c origin size z_height)

/-- Witness of `offsets_in_range`: on the 144x168 target the filled box at
(30,10,0) of size (12,7) and height 5 is drawn without a write outside the array. -/
theorem offsets_in_range_witness :
    isometric_fill_box false { x := 30, y := 10, z := 0 } { w := 12, h := 7 } 5 { argb := 3 }
      display_target ≠ .error .outOfRange :=
  ((offsets_in_range false display_target (List.replicate 24192 0) 144 rfl rfl (by decide)
    (by rw [List.length_replicate]; decide)
    { x := 0, y := 0, z := 0 } { x := 30, y := 10, z := 0 } { w := 12, h := 7 } 5 { argb := 3 }).2
    _ (by simp)).1

/-! ### The order of the writes does not matter -/

theorem set_pixel_data (s : State) (d : List Nat) (q : GPoint) (c : GColor)
    (hq : on_display q) :
    set_pixel { s with s_fb_data := some d } q c
      = if 0 ≤ pixel_offset s q ∧ pixel_offset s q < d.length then
          .ok { s with s_fb_data := some (d.set (pixel_offset s q).toNat (color_byte c)) }
        else .error .outOfRange := by
  simp only [set_pixel, hq, if_true]
  rfl

theorem set_pixel_swap (s : State) (p q : GPoint) (c : GColor) :
    (set_pixel s p c >>= fun t => set_pixel t q c)
      = (set_pixel s q c >>= fun t => set_pixel t p c) := by
  by_cases hp : on_display p
  · by_cases hq : on_display q
    · cases hd : s.s_fb_data with
      | none =>
        have e1 : set_pixel s p c = .error .nullBuffer := by simp [set_pixel, hp, hd]
        have e2 : set_pixel s q c = .error .nullBuffer := by simp [set_pixel, hq, hd]
        rw [e1, e2]
        rfl
      | some d =>
        have hs : s = { s with s_fb_data := some d } := by
          cases s; simp only at hd; subst hd; rfl
        have ep := set_pixel_data s d p c hp
        have eq := set_pixel_data s d q c hq
        rw [← hs] at ep eq
        by_cases rp : 0 ≤ pixel_offset s p ∧ pixel_offset s p < d.length
        · by_cases rq : 0 ≤ pixel_offset s q ∧ pixel_offset s q < d.length
          · rw [ep, eq, if_pos rp, if_pos rq]
            show set_pixel _ q c = set_pixel _ p c
            rw [set_pixel_data s _ q c hq, set_pixel_data s _ p c hp,
              if_pos (by rw [List.length_set]; exact rq),
              if_pos (by rw [List.length_set]; exact rp)]
            have hcomm : (d.set (pixel_offset s p).toNat (color_byte c)).set
                  (pixel_offset s q).toNat (color_byte c)
                = (d.set (pixel_offset s q).toNat (color_byte c)).set
                  (pixel_offset s p).toNat (color_byte c) := by
              by_cases e : (pixel_offset s p).toNat = (pixel_offset s q).toNat
              · rw [e]
              · exact List.set_comm _ _ _ e
            rw [hcomm]
          · rw [ep, eq, if_pos rp, if_neg rq]
            show set_pixel _ q c = .error .outOfRange
            rw [set_pixel_data s _ q c hq, if_neg (by rw [List.length_set]; exact rq)]
        · by_cases rq : 0 ≤ pixel_offset s q ∧ pixel_offset s q < d.length
          · rw [ep, eq, if_neg rp, if_pos rq]
            show Except.error Fault.outOfRange = set_pixel _ p c
            rw [set_pixel_data s _ p c hp, if_neg (by rw [List.length_set]; exact rp)]
          · rw [ep, eq, if_neg rp, if_neg rq]
            rfl
    · have e : ∀ t : State, set_pixel t q c = .ok t := fun t => set_pixel_off t q c hq
      simp only [e]
      show (set_pixel s p c >>= fun t => Except.ok t) = set_pixel s p c
      cases set_pixel s p c <;> rfl
  · have e : ∀ t : State, set_pixel t p c = .ok t := fun t => set_pixel_off t p c hp
    simp only [e]
    show set_pixel s q c = (set_pixel s q c >>= fun t => Except.ok t)
    cases set_pixel s q c <;> rfl

theorem plot_points_two (c : GColor) (a b : GPoint) (ps : List GPoint) (s : State) :
    plot_points c (a :: b :: ps) s
      = ((set_pixel s a c >>= fun t => set_pixel t b c) >>= plot_points c ps) := by
  simp only [plot_points]
  cases set_pixel s a c with
  | error e => rfl
  | ok s1 =>
    show (match set_pixel s1 b c with
      | .error e => .error e
      | .ok s2 => plot_points c ps s2) = (set_pixel s1 b c >>= plot_points c ps)
    cases set_pixel s1 b c <;> rfl

theorem plot_points_perm (c : GColor) (ps qs : List GPoint) (h : ps.Perm qs) :
    ∀ s : State, plot_points c ps s = plot_points c qs s := by
  induction h with
  | nil => intro s; rfl
  | cons x _ ih =>
    intro s
    simp only [plot_points]
    cases set_pixel s x c with
    | error e => rfl
    | ok s1 => exact ih s1
  | swap x y l =>
    intro s
    rw [plot_points_two, plot_points_two, set_pixel_swap]
  | trans _ _ ih1 ih2 => intro s; rw [ih1 s, ih2 s]

theorem plot_points_absorb (c : GColor) (ps qs : List GPoint) (h : ∀ p ∈ qs, p ∈ ps)
    (s : State) : plot_points c (ps ++ qs) s = plot_points c ps s := by
  rw [plot_points_append]
  cases hp : plot_points c ps s with
  | error e => rfl
  | ok s1 =>
    show plot_points c qs s1 = .ok s1
    exact plot_points_of_lit c qs s1 (fun p hq => plot_points_lit c ps s s1 hp p (h p hq))

theorem line_points_self (p : GPoint) : line_points p p = [p] := by
  have e : line_fuel p p = 1 := by simp [line_fuel, line_dx, line_dy, c_abs]
  rw [line_points_eq, e]
  simp [line_init, List.range_succ]

theorem start_mem_line_points (start finish : GPoint) : start ∈ line_points start finish :=
  (mem_line_points start finish start).2
    ⟨0, le_max_of_le_left (line_dx_nonneg start finish), rfl⟩

theorem finish_mem_line_points (start finish : GPoint) : finish ∈ line_points start finish :=
  (mem_line_points start finish finish).2
    ⟨line_fuel start finish - 1, le_of_eq (line_fuel_eq start finish), line_reach start finish⟩

/-! ### A box of height zero -/

/-- C13: for every origin, size, colour and state, `isometric_draw_box` with
`z_height = 0` ends in the same state as `isometric_draw_rect` alone (and faults
exactly when it does): its two bottom edges are the right and the bottom edge of
the top rectangle, and each of its three vertical edges is a single point, a
corner of that rectangle. -/
theorem draw_box_flat (origin : Vec3) (size : GSize) (c : GColor) (s : State) :
    isometric_draw_box origin size 0 c s = isometric_draw_rect origin size c s
    ∧ draw_box_points (project s) origin size 0
        = line_points (project s { x := origin.x + size.w, y := origin.y, z := origin.z })
            (project s { x := origin.x + size.w, y := origin.y + size.h, z := origin.z })
          ++ (line_points (project s { x := origin.x, y := origin.y + size.h, z := origin.z })
            (project s { x := origin.x + size.w, y := origin.y + size.h, z := origin.z })
          ++ (rect_points (project s) origin size
          ++ ([project s { x := origin.x, y := origin.y + size.h, z := origin.z }]
          ++ ([project s { x := origin.x + size.w, y := origin.y + size.h, z := origin.z }]
          ++ [project s { x := origin.x + size.w, y := origin.y, z := origin.z }]))))
    ∧ rect_points (project s) origin size
        = line_points (project s origin)
            (project s { x := origin.x + size.w, y := origin.y, z := origin.z })
          ++ (line_points (project s { x := origin.x + size.w, y := origin.y, z := origin.z })
            (project s { x := origin.x + size.w, y := origin.y + size.h, z := origin.z })
          ++ (line_points (project s { x := origin.x, y := origin.y + size.h, z := origin.z })
            (project s { x := origin.x + size.w, y := origin.y + size.h, z := origin.z })
          ++ line_points (project s origin)
            (project s { x := origin.x, y := origin.y + size.h, z := origin.z })))
    ∧ (∀ corner ∈ [(origin.x, origin.y + size.h), (origin.x + size.w, origin.y + size.h),
          (origin.x + size.w, origin.y)],
        line_points (project s { x := corner.1, y := corner.2, z := origin.z })
            (project s { x := corner.1, y := corner.2, z := origin.z + 0 })
          = [project s { x := corner.1, y := corner.2, z := origin.z }]
        ∧ project s { x := corner.1, y := corner.2, z := origin.z }
            ∈ rect_points (project s) origin size) := by
  have hpts : draw_box_points (project s) origin size 0
      = line_points (project s { x := origin.x + size.w, y := origin.y, z := origin.z })
            (project s { x := origin.x + size.w, y := origin.y + size.h, z := origin.z })
          ++ (line_points (project s { x := origin.x, y := origin.y + size.h, z := origin.z })
            (project s { x := origin.x + size.w, y := origin.y + size.h, z := origin.z })
          ++ (rect_points (project s) origin size
          ++ ([project s { x := origin.x, y := origin.y + size.h, z := origin.z }]
          ++ ([project s { x := origin.x + size.w, y := origin.y + size.h, z := origin.z }]
          ++ [project s { x := origin.x + size.w, y := origin.y, z := origin.z }])))) := by
    unfold draw_box_points
    simp only [add_zero, line_points_self]
  have hc1 : project s { x := origin.x, y := origin.y + size.h, z := origin.z }
      ∈ rect_points (project s) origin size := by
    unfold rect_points
    simp only [List.mem_append]
    exact Or.inr (Or.inr (Or.inl (start_mem_line_points _ _)))
  have hc2 : project s { x := origin.x + size.w, y := origin.y + size.h, z := origin.z }
      ∈ rect_points (project s) origin size := by
    unfold rect_points
    simp only [List.mem_append]
    exact Or.inr (Or.inr (Or.inl (finish_mem_line_points _ _)))
  have hc3 : project s { x := origin.x + size.w, y := origin.y, z := origin.z }
      ∈ rect_points (project s) origin size := by
    unfold rect_points
    simp only [List.mem_append]
    exact Or.inl (finish_mem_line_points _ _)
  refine ⟨?_, hpts, rfl, ?_⟩
  · rw [plots_draw_box c origin size 0 s, plots_draw_rect c origin size s]
    show plot_points c (draw_box_points (project s) origin size 0) s = _
    rw [hpts, ← List.append_assoc]
    rw [plot_points_perm c _ _ List.perm_append_comm, List.append_assoc]
    apply plot_points_absorb
    intro p hp
    simp only [List.mem_append, List.mem_singleton] at hp
    rcases hp with ((rfl | rfl | rfl) | hp | hp)
    · exact hc1
    · exact hc2
    · exact hc3
    · unfold rect_points
      simp only [List.mem_append]
      exact Or.inr (Or.inl hp)
    · unfold rect_points
      simp only [List.mem_append]
      exact Or.inr (Or.inr (Or.inl hp))
  · intro corner hcorner
    simp only [List.mem_cons, List.mem_singleton, List.not_mem_nil, or_false] at hcorner
    refine ⟨by rw [add_zero]; exact line_points_self _, ?_⟩
    rcases hcorner with rfl | rfl | rfl
    · exact hc1
    · exact hc2
    · exact hc3
end Isometric
